import Mathlib

/-!
Verification of the notionManager reconciliation engine.

This file gives a shallow embedding of the core of the repository:

* `src/notionmanager/utils.py`       — pure path/tag helpers
  (`generate_tags`, `create_new_url`);
* `src/notionmanager/cloudinary_manager.py` — `CloudinaryManager`
  (`_extract_public_id`, `scan_folder`, `update_assets`);
* `src/notionmanager/backends.py`    — `LocalJsonSyncBackend`
  (`create_entry`, `update_entry`, `delete_entry`) and
  `NotionSyncBackend._build_flat_object_for_update` / `update_entry`.

Strings are Lean `String`s; Python dicts that the code iterates in insertion
order are association lists (`List (String × _)`) with Python-dict insert /
pop / lookup semantics; remote services (Cloudinary, file system) are oracle
records supplied as parameters; exceptions are `Option`/`Except` style
control flow made explicit.
-/

set_option maxRecDepth 4000

namespace NotionSync

/-! ## Python string helpers

`str.lower()` on the ASCII range, as used by the engine for file-name
comparison, and `str.title()` / `Path.stem` used to build display names. -/

/-- ASCII `str.lower()`: Python's `lower` restricted to ASCII, which is all
the file names manipulated by the engine use. -/
def pyLower (s : String) : String :=
  String.mk (s.data.map Char.toLower)

/-- One tag normalisation step of `generate_tags`:
`tag.lower().replace(" ", "_")` (char-wise; a space is unaffected by
`lower`, every other char is lowered). -/
def normTag (s : String) : String :=
  String.mk (s.data.map (fun c => if c = ' ' then '_' else Char.toLower c))

/-- `utils.generate_tags`: `[root_category] + list(relative_path.parts[:-1])`,
each lowered and space→underscore, de-duplicated keeping first occurrences.
The relative path is given by its parts (the last part is the file name). -/
def generate_tags (relParts : List String) (root_category : String) : List String :=
  let tag_list := root_category :: relParts.dropLast
  tag_list.foldl
    (fun acc tag =>
      let t := normTag tag
      if t ∈ acc then acc else acc ++ [t])
    []

/-- The default transformation string of `utils.create_new_url`. -/
def defaultTransformation : String := "w_1500,h_600,c_fill,g_auto"

/-- `utils.create_new_url`: insert the transformation right after the first
occurrence of the marker `upload/`; if the marker is absent, return the URL
unchanged. -/
def create_new_url (cloudinary_url : String) : String :=
  match cloudinary_url.splitOn "upload/" with
  | [] => cloudinary_url
  | [_] => cloudinary_url
  | p0 :: rest =>
      p0 ++ "upload/" ++ defaultTransformation ++ "/" ++ String.intercalate "upload/" rest

/-- `pathlib.Path(...).stem` on a bare file name: the name without its final
suffix; a suffix exists only when the last dot is neither the first nor the
last character. -/
def pyStem (name : String) : String :=
  let cs := name.data
  let n := cs.length
  match (List.range n).filter (fun i => cs.get? i = some '.') |>.getLast? with
  | none => name
  | some i => if 0 < i ∧ i < n - 1 then String.mk (cs.take i) else name

/-- Helper for `pyTitle`: walk the characters remembering whether the
previous character was alphabetic. -/
def pyTitleGo : Bool → List Char → List Char
  | _, [] => []
  | prevAlpha, c :: cs =>
      let here := c.isAlpha
      let c' := if here then (if prevAlpha then c.toLower else c.toUpper) else c
      c' :: pyTitleGo here cs

/-- ASCII `str.title()`: the first letter of every run of letters is upper
cased, the rest lowered. -/
def pyTitle (s : String) : String :=
  String.mk (pyTitleGo false s.data)

/-- The display name computed by `update_assets`:
`Path(file_name).stem.replace("_", " ").title()`. -/
def displayName (file_name : String) : String :=
  pyTitle (String.mk ((pyStem file_name).data.map (fun c => if c = '_' then ' ' else c)))

/-! ## `CloudinaryManager._extract_public_id`

A direct model of the Python regex search
`re.search(r"/upload/(?:[^/]+/)?v\d+/([^\.]+)\.", url)`:
leftmost match, group-present alternative tried first, greedy character
classes (whose backtracking is deterministic for this pattern, since each
`X+` run ends exactly at the following delimiter). -/

/-- Strip an expected literal from the head of a char list. -/
def dropLiteral : List Char → List Char → Option (List Char)
  | [], cs => some cs
  | _, [] => none
  | p :: ps, c :: cs => if c = p then dropLiteral ps cs else none

/-- Match `v\d+/` at the head, returning the remainder.  The greedy `\d+`
deterministically matches the maximal digit run (a shorter run would be
followed by a digit, not `/`). -/
def matchVersion (cs : List Char) : Option (List Char) :=
  match cs with
  | 'v' :: rest =>
      match rest.takeWhile Char.isDigit, rest.dropWhile Char.isDigit with
      | [], _ => none
      | _ :: _, '/' :: tail => some tail
      | _, _ => none
  | _ => none

/-- Match `[^/]+/` at the head (one path segment), returning the remainder.
The greedy `[^/]+` deterministically matches the maximal non-`/` run. -/
def matchSegment (cs : List Char) : Option (List Char) :=
  match cs.takeWhile (fun c => !(c = '/')), cs.dropWhile (fun c => !(c = '/')) with
  | [], _ => none
  | _ :: _, '/' :: tail => some tail
  | _, _ => none

/-- Match `([^\.]+)\.` at the head, returning the captured group: the
maximal nonempty non-`.` run, which must be followed by a dot. -/
def matchGroup (cs : List Char) : Option (List Char) :=
  match cs.takeWhile (fun c => !(c = '.')), cs.dropWhile (fun c => !(c = '.')) with
  | [], _ => none
  | c0 :: grp, '.' :: _ => some (c0 :: grp)
  | _, _ => none

/-- The alternative of `(?:[^/]+/)?v\d+/([^\.]+)\.` in which the optional
segment is present. -/
def matchWithSegment (cs : List Char) : Option (List Char) :=
  match matchSegment cs with
  | some r1 =>
      match matchVersion r1 with
      | some r2 => matchGroup r2
      | none => none
  | none => none

/-- Match `(?:[^/]+/)?v\d+/([^\.]+)\.` at the head: the alternative with the
optional segment present is tried first, as the regex engine does; on its
failure the engine backtracks to the segment-less alternative. -/
def matchAfterUpload (cs : List Char) : Option (List Char) :=
  match matchWithSegment cs with
  | some g => some g
  | none =>
      match matchVersion cs with
      | some r => matchGroup r
      | none => none

/-- `re.search`: try each start position left to right; the pattern starts
with the literal `/upload/`. -/
def searchUpload : List Char → Option (List Char)
  | [] => none
  | c :: rest =>
      match dropLiteral "/upload/".data (c :: rest) with
      | some tail =>
          match matchAfterUpload tail with
          | some g => some g
          | none => searchUpload rest
      | none => searchUpload rest

/-- `CloudinaryManager._extract_public_id`: the captured group of the first
match, or `""` when there is no match (the `try/except` in the source also
returns `""` on any error, so the function is total). -/
def extract_public_id (url : String) : String :=
  match searchUpload url.data with
  | some g => String.mk g
  | none => ""

/-! ## Association lists with Python-dict semantics

The backend's `_data` and the engine's `scanned_by_hash` are Python dicts:
insertion-ordered, `d[k] = v` replaces in place when the key is present and
appends otherwise, `pop` removes the first (only) binding. -/

/-- `d.get(k)` / `d[k]`: value of the first binding of `k`. -/
def lookupA {α : Type} (k : String) : List (String × α) → Option α
  | [] => none
  | (k', v) :: rest => if k' = k then some v else lookupA k rest

/-- `d[k] = v`: replace the binding in place if present, else append. -/
def insertA {α : Type} (k : String) (v : α) : List (String × α) → List (String × α)
  | [] => [(k, v)]
  | (k', v') :: rest =>
      if k' = k then (k, v) :: rest else (k', v') :: insertA k v rest

/-- `d.pop(k, default)` (the removal part): drop the first binding of `k`. -/
def removeA {α : Type} (k : String) : List (String × α) → List (String × α)
  | [] => []
  | (k', v') :: rest => if k' = k then rest else (k', v') :: removeA k rest

/-- In-place field mutation of the record object stored at key `k`
(`existing_entry["raw_path"] = ...` on a dict that lives in the store). -/
def adjustA {α : Type} (k : String) (g : α → α) : List (String × α) → List (String × α)
  | [] => []
  | (k', v') :: rest =>
      if k' = k then (k', g v') :: rest else (k', v') :: adjustA k g rest

/-- The keys of an association list, in order. -/
def keysA {α : Type} (l : List (String × α)) : List String := l.map (·.1)

/-! ## Data model

`FileInfo` is one element of the list `scan_folder` returns; `Record` is one
record of the local JSON log (`LocalJsonSyncBackend._data[hash]`), with the
six standard fields plus any extra fields the stored JSON object carries. -/

/-- A scanned local file as produced by `CloudinaryManager.scan_folder`. -/
structure FileInfo where
  file_name : String
  raw_path : String
  expanded_path : String
  hash : String
  tags : List String
deriving Repr, DecidableEq

/-- One record of the local JSON log. `extra` models any JSON fields beyond
the six the backend itself writes. -/
structure Record where
  id : String
  file_name : String
  raw_path : String
  image_url : Option String
  tags : List String
  hash : String
  extra : List (String × String)
deriving Repr, DecidableEq

/-- The JSON log contents: content-hash → record, in insertion order. -/
abbrev Store := List (String × Record)

/-- The fields of the engine's `file_info` dict that
`LocalJsonSyncBackend.create_entry` / `update_entry` read:
`hash`, `file_name`, `raw_path`, `tags` and (optional) `image_url`. -/
structure SyncFileInfo where
  file_name : String
  raw_path : String
  hash : String
  tags : List String
  image_url : Option String
deriving Repr, DecidableEq

/-! ## `LocalJsonSyncBackend` -/

namespace LocalJson

/-- `LocalJsonSyncBackend.create_entry`: store a fresh record under
`file_info["hash"]` whose `id` and `hash` both equal that key. -/
def create_entry (st : Store) (file_info : SyncFileInfo) : Store :=
  insertA file_info.hash
    { id := file_info.hash
      file_name := file_info.file_name
      raw_path := file_info.raw_path
      image_url := file_info.image_url
      tags := file_info.tags
      hash := file_info.hash
      extra := [] } st

/-- `LocalJsonSyncBackend.update_entry`: pop the record under the old hash
(`existing_entry["hash"]`; an empty record if absent), overwrite the six
standard fields keeping any extra ones, re-insert under the new hash. -/
def update_entry (st : Store) (file_info : SyncFileInfo) (existing_entry : Record) : Store :=
  let old_hash := existing_entry.hash
  let new_hash := file_info.hash
  let popped := lookupA old_hash st
  let st1 := removeA old_hash st
  let record : Record :=
    { id := new_hash
      file_name := file_info.file_name
      raw_path := file_info.raw_path
      image_url := file_info.image_url
      tags := file_info.tags
      hash := new_hash
      extra := (popped.map Record.extra).getD [] }
  insertA new_hash record st1

/-- `LocalJsonSyncBackend.delete_entry`: remove the record under
`existing_entry["hash"]` when present; a no-op (and no exception) when the
hash is absent. -/
def delete_entry (st : Store) (existing_entry : Record) : Store :=
  if (lookupA existing_entry.hash st).isSome then removeA existing_entry.hash st else st

end LocalJson

/-! ## The cloudinary oracle and the effect trace

Remote Cloudinary calls are modelled by an oracle: each operation either
returns a response (`Except.ok`) or raises (`Except.error`).  The engine
records every call it issues in a trace. -/

/-- `cloudinary.uploader.upload` response fields the engine reads. -/
structure UploadResp where
  secure_url : String
  public_id : String
deriving Repr, DecidableEq

/-- Results of the remote Cloudinary calls; `Except.error` is a raised
exception. `destroy` returns the response's `result` field. -/
structure Oracle where
  upload : FileInfo → Except String UploadResp
  rename : String → String → Except String Unit
  resource : String → Except String String
  destroy : String → Except String String
  display : String → String → Except String Unit

/-- One remote call issued by the engine. -/
inductive Effect where
  | uploadE (f : FileInfo)
  | renameE (oldId newId : String)
  | resourceE (publicId : String)
  | destroyE (publicId : String)
  | displayE (publicId name : String)
  | createE (hash : String)
  | updateE (oldHash newHash : String)
  | deleteE (hash : String)
deriving Repr, DecidableEq

/-- Result of a reconciliation run: final log contents, the calls issued in
order, and whether the run ran to completion (`false` = an uncaught
exception aborted it). -/
structure RunResult where
  store : Store
  trace : List Effect
  completed : Bool
deriving Repr, DecidableEq

/-! ## `CloudinaryManager.update_assets`, LocalJsonSyncBackend variant

The per-item state machine of lines 184–318 and the deletion pass of lines
320–344.  An `Except.error` from `upload` is not caught by the engine and
aborts the run (`completed := false`); `rename`/`resource` failures fall
back to a re-upload; `destroy` failures and results, and display-name
failures, are swallowed. -/

/-- The `file_info` fields passed to the JSON backend, with the `image_url`
the engine just computed. -/
def mkSync (f : FileInfo) (image_url : Option String) : SyncFileInfo :=
  { file_name := f.file_name
    raw_path := f.raw_path
    hash := f.hash
    tags := f.tags
    image_url := image_url }

/-- The linear scan of `existing_entries.values()` looking for an entry with
exactly the scanned file's name (the JSON-backend branch of lines 264–273). -/
def findByName : Store → String → Option Record
  | [], _ => none
  | (_, r) :: rest, name => if r.file_name = name then some r else findByName rest name

/-- Tail of the RENAME branch after a Cloudinary URL and public id were
obtained (lines 216/222–233): display-name update, `update_entry`, and the
in-memory mutation of the stored record. -/
def renameFinish (o : Oracle) (st : Store) (existing_entry : Record) (f : FileInfo)
    (display_name new_url public_id : String) (tr : List Effect) :
    Store × List Effect × Bool :=
  let image_url := create_new_url new_url
  let _dn := o.display public_id display_name
  let st1 := LocalJson.update_entry st (mkSync f (some image_url)) existing_entry
  let st2 := adjustA f.hash
    (fun r => { r with raw_path := f.raw_path, file_name := f.file_name }) st1
  (st2,
   tr ++ [Effect.displayE public_id display_name, Effect.updateE existing_entry.hash f.hash],
   true)

/-- The `except` arm of the RENAME branch (lines 217–223): re-upload; a
failure of the fallback upload itself is not caught. -/
def renameFallback (o : Oracle) (st : Store) (existing_entry : Record) (f : FileInfo)
    (display_name : String) (tr : List Effect) : Store × List Effect × Bool :=
  match o.upload f with
  | .error _ => (st, tr ++ [Effect.uploadE f], false)
  | .ok resp =>
      renameFinish o st existing_entry f display_name resp.secure_url resp.public_id
        (tr ++ [Effect.uploadE f])

/-- One iteration of the additions/updates loop (lines 184–318) for a single
`(file_hash, file_info)` item of `scanned_by_hash`. -/
def processItem (o : Oracle) (root_category : String) (update_tags : Bool)
    (st : Store) (f : FileInfo) : Store × List Effect × Bool :=
  let display_name := displayName f.file_name
  match lookupA f.hash st with
  | some existing_entry =>
      if pyLower existing_entry.file_name ≠ pyLower f.file_name then
        -- RENAME: the file name changed while the hash matched.
        let old_public_id := extract_public_id (existing_entry.image_url.getD "")
        let new_public_id := root_category ++ "/" ++ pyLower (pyStem f.file_name)
        match o.rename old_public_id new_public_id with
        | .ok _ =>
            match o.resource new_public_id with
            | .ok new_url =>
                renameFinish o st existing_entry f display_name new_url new_public_id
                  [Effect.renameE old_public_id new_public_id, Effect.resourceE new_public_id]
            | .error _ =>
                renameFallback o st existing_entry f display_name
                  [Effect.renameE old_public_id new_public_id, Effect.resourceE new_public_id]
        | .error _ =>
            renameFallback o st existing_entry f display_name
              [Effect.renameE old_public_id new_public_id]
      else
        -- Same name: UPDATE when the source path or the tag list changed.
        if f.raw_path ≠ existing_entry.raw_path ∨
           (update_tags = true ∧ existing_entry.tags ≠ f.tags) then
          match o.upload f with
          | .error _ => (st, [Effect.uploadE f], false)
          | .ok resp =>
              let image_url := create_new_url resp.secure_url
              let _dn := o.display resp.public_id display_name
              let st1 := LocalJson.update_entry st (mkSync f (some image_url)) existing_entry
              let st2 := adjustA f.hash (fun r => { r with raw_path := f.raw_path }) st1
              (st2,
               [Effect.uploadE f, Effect.displayE resp.public_id display_name,
                Effect.updateE existing_entry.hash f.hash],
               true)
        else
          -- NO-OP.
          (st, [], true)
  | none =>
      match findByName st f.file_name with
      | some matching_entry =>
          -- CONTENT CHANGED: same name, new hash.
          let old_public_id := extract_public_id (matching_entry.image_url.getD "")
          let _destroyResp := o.destroy old_public_id
          match o.upload f with
          | .error _ => (st, [Effect.destroyE old_public_id, Effect.uploadE f], false)
          | .ok resp =>
              let image_url := create_new_url resp.secure_url
              let _dn := o.display resp.public_id display_name
              let st1 := LocalJson.update_entry st (mkSync f (some image_url)) matching_entry
              let st2 := adjustA f.hash
                (fun r => { r with raw_path := f.raw_path, hash := f.hash }) st1
              (st2,
               [Effect.destroyE old_public_id, Effect.uploadE f,
                Effect.displayE resp.public_id display_name,
                Effect.updateE matching_entry.hash f.hash],
               true)
      | none =>
          -- NEW FILE.
          match o.upload f with
          | .error _ => (st, [Effect.uploadE f], false)
          | .ok resp =>
              let _dn := o.display resp.public_id display_name
              let image_url := create_new_url resp.secure_url
              let st1 := LocalJson.create_entry st (mkSync f (some image_url))
              (st1,
               [Effect.uploadE f, Effect.displayE resp.public_id display_name,
                Effect.createE f.hash],
               true)

/-- The additions/updates loop over `scanned_by_hash.items()`; an uncaught
exception stops the whole run. -/
def runAdditions (o : Oracle) (root_category : String) (update_tags : Bool) :
    Store → List (String × FileInfo) → Store × List Effect × Bool
  | st, [] => (st, [], true)
  | st, (_, f) :: rest =>
      match processItem o root_category update_tags st f with
      | (st1, tr1, true) =>
          let (st2, tr2, ok2) := runAdditions o root_category update_tags st1 rest
          (st2, tr1 ++ tr2, ok2)
      | (st1, tr1, false) => (st1, tr1, false)

/-- The `found` test of the deletion pass (lines 328–332): some scanned
file's lower-cased name equals the stored entry's lower-cased name. -/
def foundLocally (scanned : List FileInfo) (existing_entry : Record) : Bool :=
  scanned.any (fun f => pyLower existing_entry.file_name == pyLower f.file_name)

/-- The deletion pass (lines 320–344), iterating over a snapshot
`list(existing_entries.items())`: an entry is kept exactly when some
scanned file has the same lower-cased name; otherwise `delete_entry` runs
and a best-effort `destroy` is attempted. -/
def runDeletions (o : Oracle) (scanned : List FileInfo) :
    Store → List (String × Record) → Store × List Effect
  | st, [] => (st, [])
  | st, (_, existing_entry) :: rest =>
      if foundLocally scanned existing_entry then
        runDeletions o scanned st rest
      else
        let public_id := extract_public_id (existing_entry.image_url.getD "")
        let st1 := LocalJson.delete_entry st existing_entry
        let _destroyResp := o.destroy public_id
        let (st2, tr2) := runDeletions o scanned st1 rest
        (st2, Effect.deleteE existing_entry.hash :: Effect.destroyE public_id :: tr2)

/-- `scanned_by_hash = {f["hash"]: f for f in scanned_files}`. -/
def scannedByHash (scanned : List FileInfo) : List (String × FileInfo) :=
  scanned.foldl (fun d f => insertA f.hash f d) []

/-- `CloudinaryManager.update_assets` for the LocalJsonSyncBackend, from the
scanned file list and the fetched entries on: the additions/updates loop
followed (when no exception escaped) by the deletion pass over a snapshot of
the current entries. -/
def update_assets (o : Oracle) (root_category : String) (update_tags : Bool)
    (scanned : List FileInfo) (st0 : Store) : RunResult :=
  let items := scannedByHash scanned
  match runAdditions o root_category update_tags st0 items with
  | (st1, tr1, true) =>
      let (st2, tr2) := runDeletions o scanned st1 st1
      ⟨st2, tr1 ++ tr2, true⟩
  | (st1, tr1, false) => ⟨st1, tr1, false⟩

/-! ## `CloudinaryManager.scan_folder`

The file system is an oracle: existence and directory-ness of paths,
`os.path.expandvars`, and the `rglob("*")` listing (one `FSFile` per entry,
carrying its base name, suffix, relative-path parts and content digest). -/

/-- One file found by `rglob`, with its `compute_file_hash` digest. -/
structure FSFile where
  name : String
  suffix : String
  relParts : List String
  digest : String
deriving Repr, DecidableEq

/-- The file-system oracle. -/
structure FileSystem where
  pathExists : String → Bool
  isDirectory : String → Bool
  expandvars : String → String
  listFiles : String → List FSFile

/-- The extension allow-list: the fixed set, plus `.svg` for category
`icon`. -/
def supportedExtensions (root_category : String) : List String :=
  let base := [".jpg", ".jpeg", ".png", ".gif", ".bmp", ".webp", ".avif"]
  if root_category = "icon" then base ++ [".svg"] else base

/-- `CloudinaryManager.scan_folder`: raises `FileNotFoundError` when the
expanded folder path does not exist (`.exists()`), otherwise walks the
listing, filters by extension and skip list, and builds one descriptor per
qualifying file. -/
def scan_folder (fs : FileSystem) (folder_path root_category : String)
    (skip_files : List String) : Except String (List FileInfo) :=
  let expanded_folder_path := fs.expandvars folder_path
  let raw_folder_path := folder_path
  if fs.pathExists expanded_folder_path then
    .ok ((fs.listFiles expanded_folder_path).filterMap (fun file =>
      if pyLower file.suffix ∈ supportedExtensions root_category ∧
         file.name ∉ skip_files then
        some { file_name := file.name
               raw_path := raw_folder_path ++ "/" ++ String.intercalate "/" file.relParts
               expanded_path := expanded_folder_path ++ "/" ++ String.intercalate "/" file.relParts
               hash := file.digest
               tags := generate_tags file.relParts root_category }
      else none))
  else
    .error ("Folder " ++ expanded_folder_path ++ " does not exist.")

/-! ## `NotionSyncBackend.update_entry`

Just the slice of the Notion backend that decides which page mutations an
update issues.  Icon and cover payloads, and plain property values, are
passed through by the code without inspection, so they are modelled as
opaque strings; `build_notion_payload` excludes `icon`/`cover` from the
properties and serialises the remaining flat values, so the properties part
of the payload is modelled by the flat key/value list itself. -/

namespace NotionBackend

/-- The slice of `NotionDBConfig` that `_build_flat_object_for_update`
reads: the keys of `back_mapping` (in dict order) and `default_icon`
(`none` models the falsy `{}`). -/
structure DBConfig where
  backKeys : List String
  default_icon : Option String
deriving Repr, DecidableEq

/-- The `file_info` dict as the Notion backend sees it: optional explicit
`icon`, optional `image_url`, and the remaining flat fields. -/
structure NFileInfo where
  icon : Option String
  image_url : Option String
  fields : List (String × String)
deriving Repr, DecidableEq

/-- The flat object the backend builds before serialisation. -/
structure FlatObject where
  icon : Option String
  cover : Option String
  props : List (String × String)
deriving Repr, DecidableEq

/-- `NotionSyncBackend._build_flat_object_for_update` (lines 150–170): the
icon is the explicit one when provided, otherwise the configured default
when one exists; the cover comes from `image_url`; every other mapped key
present in `file_info` is copied. -/
def build_flat_object_for_update (cfg : DBConfig) (file_info : NFileInfo) : FlatObject :=
  let icon :=
    if "icon" ∈ cfg.backKeys then
      match file_info.icon with
      | some i => some i
      | none => cfg.default_icon
    else none
  let cover := if "cover" ∈ cfg.backKeys then file_info.image_url else none
  let props := cfg.backKeys.filterMap (fun k =>
    if k = "icon" ∨ k = "cover" then none
    else (lookupA k file_info.fields).map (fun v => (k, v)))
  ⟨icon, cover, props⟩

/-- `NotionSyncBackend._build_flat_object_for_create` (lines 122–148): same
icon rule; the cover again comes from `image_url`; other mapped keys present
in `file_info` are copied. -/
def build_flat_object_for_create (cfg : DBConfig) (file_info : NFileInfo) : FlatObject :=
  let icon :=
    if "icon" ∈ cfg.backKeys then
      match file_info.icon with
      | some i => some i
      | none => cfg.default_icon
    else none
  let cover := if "cover" ∈ cfg.backKeys then file_info.image_url else none
  let props := cfg.backKeys.filterMap (fun k =>
    if k = "icon" ∨ k = "cover" then none
    else (lookupA k file_info.fields).map (fun v => (k, v)))
  ⟨icon, cover, props⟩

/-- One Notion page mutation issued by `update_entry`. -/
inductive NotionOp where
  | updatePage (pageId : String) (props : List (String × String))
  | updateCover (pageId : String) (coverUrl : String)
  | updateIcon (pageId : String) (icon : String)
deriving Repr, DecidableEq

/-- `NotionSyncBackend.update_entry` (lines 186–212): always patch the
properties; additionally patch the cover when the flat object has one, and
the icon when the flat object has one. -/
def update_entry (cfg : DBConfig) (file_info : NFileInfo) (pageId : String) :
    List NotionOp :=
  let flat := build_flat_object_for_update cfg file_info
  [NotionOp.updatePage pageId flat.props]
    ++ (match flat.cover with
        | some u => [NotionOp.updateCover pageId u]
        | none => [])
    ++ (match flat.icon with
        | some i => [NotionOp.updateIcon pageId i]
        | none => [])

/-- The icon payloads among a list of page mutations. -/
def iconOps (ops : List NotionOp) : List String :=
  ops.filterMap (fun op =>
    match op with
    | NotionOp.updateIcon _ i => some i
    | _ => none)

end NotionBackend

/-- The store invariant of the local JSON log: keys are unique and every
record's `id` and `hash` fields equal the key it is stored under. -/
@[reducible] def StoreInv (st : Store) : Prop :=
  (keysA st).Nodup ∧ ∀ p ∈ st, p.2.hash = p.1 ∧ p.2.id = p.1

/-! ## Lemmas about the dict operations -/

theorem lookupA_insertA_self {α : Type} (k : String) (v : α) (l : List (String × α)) :
    lookupA k (insertA k v l) = some v := by
  induction l with
  | nil => simp [insertA, lookupA]
  | cons p rest ih =>
      obtain ⟨k', v'⟩ := p
      by_cases h : k' = k
      · simp [insertA, h, lookupA]
      · simp [insertA, h, lookupA, ih]

theorem lookupA_insertA_ne {α : Type} {k k' : String} (v : α) (l : List (String × α))
    (h : k' ≠ k) : lookupA k' (insertA k v l) = lookupA k' l := by
  have hne : k ≠ k' := fun h' => h h'.symm
  induction l with
  | nil => simp [insertA, lookupA, if_neg hne]
  | cons p rest ih =>
      obtain ⟨k₀, v₀⟩ := p
      by_cases h0 : k₀ = k
      · subst h0
        simp [insertA, lookupA, if_neg hne]
      · simp only [insertA, if_neg h0, lookupA]
        by_cases h1 : k₀ = k'
        · simp [h1]
        · simp [h1, ih]

theorem lookupA_removeA_ne {α : Type} {k k' : String} (l : List (String × α))
    (h : k' ≠ k) : lookupA k' (removeA k l) = lookupA k' l := by
  have hne : k ≠ k' := fun h' => h h'.symm
  induction l with
  | nil => simp [removeA]
  | cons p rest ih =>
      obtain ⟨k₀, v₀⟩ := p
      by_cases h0 : k₀ = k
      · subst h0
        simp [removeA, lookupA, if_neg hne]
      · simp only [removeA, if_neg h0, lookupA]
        by_cases h1 : k₀ = k'
        · simp [h1]
        · simp [h1, ih]

theorem keysA_nil {α : Type} : keysA ([] : List (String × α)) = [] := rfl

theorem keysA_cons {α : Type} (k : String) (v : α) (l : List (String × α)) :
    keysA ((k, v) :: l) = k :: keysA l := rfl

theorem removeA_sublist {α : Type} (k : String) (l : List (String × α)) :
    List.Sublist (removeA k l) l := by
  induction l with
  | nil => simp [removeA]
  | cons p rest ih =>
      obtain ⟨k₀, v₀⟩ := p
      by_cases h0 : k₀ = k
      · simp only [removeA, if_pos h0]
        exact (List.Sublist.refl rest).cons _
      · simp only [removeA, if_neg h0]
        exact ih.cons₂ _

theorem mem_of_mem_removeA {α : Type} {k : String} {l : List (String × α)}
    {p : String × α} (h : p ∈ removeA k l) : p ∈ l :=
  (removeA_sublist k l).mem h

theorem keysA_removeA_sublist {α : Type} (k : String) (l : List (String × α)) :
    List.Sublist (keysA (removeA k l)) (keysA l) :=
  (removeA_sublist k l).map _

theorem lookupA_eq_none_of_not_mem_keys {α : Type} {k : String}
    {l : List (String × α)} (h : k ∉ keysA l) : lookupA k l = none := by
  induction l with
  | nil => simp [lookupA]
  | cons p rest ih =>
      obtain ⟨k₀, v₀⟩ := p
      rw [keysA_cons, List.mem_cons, not_or] at h
      obtain ⟨ha, hb⟩ := h
      simp only [lookupA, if_neg (fun hh : k₀ = k => ha hh.symm)]
      exact ih hb

theorem not_mem_keys_of_lookupA_eq_none {α : Type} {k : String}
    {l : List (String × α)} (h : lookupA k l = none) : k ∉ keysA l := by
  induction l with
  | nil => simp [keysA]
  | cons p rest ih =>
      obtain ⟨k₀, v₀⟩ := p
      simp only [lookupA] at h
      by_cases h0 : k₀ = k
      · simp [h0] at h
      · simp only [if_neg h0] at h
        simp only [keysA, List.map_cons, List.mem_cons]
        push_neg
        exact ⟨fun hk => h0 hk.symm, by simpa [keysA] using ih h⟩

theorem lookupA_isSome_of_mem {α : Type} {l : List (String × α)} {p : String × α}
    (h : p ∈ l) : (lookupA p.1 l).isSome := by
  induction l with
  | nil => simp at h
  | cons q rest ih =>
      obtain ⟨k₀, v₀⟩ := q
      rcases List.mem_cons.mp h with h1 | h1
      · subst h1
        simp [lookupA]
      · simp only [lookupA]
        by_cases h0 : k₀ = p.1
        · simp [h0]
        · simp only [if_neg h0]
          exact ih h1

theorem lookupA_removeA_self_of_nodup {α : Type} {k : String}
    {l : List (String × α)} (h : (keysA l).Nodup) :
    lookupA k (removeA k l) = none := by
  induction l with
  | nil => simp [removeA, lookupA]
  | cons p rest ih =>
      obtain ⟨k₀, v₀⟩ := p
      simp only [keysA, List.map_cons, List.nodup_cons] at h
      by_cases h0 : k₀ = k
      · subst h0
        simp only [removeA, if_pos rfl]
        exact lookupA_eq_none_of_not_mem_keys h.1
      · simp only [removeA, if_neg h0, lookupA, if_neg h0]
        exact ih h.2

theorem keysA_insertA {α : Type} (k : String) (v : α) (l : List (String × α)) :
    keysA (insertA k v l) = if k ∈ keysA l then keysA l else keysA l ++ [k] := by
  induction l with
  | nil => simp [insertA, keysA]
  | cons p rest ih =>
      obtain ⟨k₀, v₀⟩ := p
      by_cases h0 : k₀ = k
      · subst h0
        rw [show insertA k₀ v ((k₀, v₀) :: rest) = (k₀, v) :: rest from by
          simp [insertA]]
        rw [keysA_cons, keysA_cons, if_pos (List.mem_cons_self _ _)]
      · have hkk : ¬k = k₀ := fun hh => h0 hh.symm
        rw [show insertA k v ((k₀, v₀) :: rest) = (k₀, v₀) :: insertA k v rest from by
          simp [insertA, h0]]
        rw [keysA_cons, keysA_cons, ih]
        by_cases hm : k ∈ keysA rest
        · rw [if_pos hm, if_pos (List.mem_cons_of_mem _ hm)]
        · rw [if_neg hm,
            if_neg (by rw [List.mem_cons]; exact fun hor => hor.elim hkk hm)]
          simp

theorem nodup_keysA_insertA {α : Type} (k : String) (v : α)
    {l : List (String × α)} (h : (keysA l).Nodup) :
    (keysA (insertA k v l)).Nodup := by
  rw [keysA_insertA]
  by_cases hm : k ∈ keysA l
  · simpa [hm]
  · simp only [if_neg hm]
    refine List.Nodup.append h (List.nodup_singleton k) ?_
    intro a ha hb
    simp only [List.mem_singleton] at hb
    subst hb
    exact hm ha

theorem nodup_keysA_removeA {α : Type} (k : String) {l : List (String × α)}
    (h : (keysA l).Nodup) : (keysA (removeA k l)).Nodup :=
  (keysA_removeA_sublist k l).nodup h

theorem mem_insertA {α : Type} {k : String} {v : α} {l : List (String × α)}
    {p : String × α} (h : p ∈ insertA k v l) : p = (k, v) ∨ p ∈ l := by
  induction l with
  | nil => simpa [insertA] using h
  | cons q rest ih =>
      obtain ⟨k₀, v₀⟩ := q
      by_cases h0 : k₀ = k
      · simp only [insertA, if_pos h0] at h
        rcases List.mem_cons.mp h with h1 | h1
        · exact Or.inl h1
        · exact Or.inr (List.mem_cons_of_mem _ h1)
      · simp only [insertA, if_neg h0] at h
        rcases List.mem_cons.mp h with h1 | h1
        · exact Or.inr (by simp [h1])
        · rcases ih h1 with h2 | h2
          · exact Or.inl h2
          · exact Or.inr (List.mem_cons_of_mem _ h2)

theorem keysA_adjustA {α : Type} (k : String) (g : α → α) (l : List (String × α)) :
    keysA (adjustA k g l) = keysA l := by
  induction l with
  | nil => simp [adjustA]
  | cons p rest ih =>
      obtain ⟨k₀, v₀⟩ := p
      by_cases h0 : k₀ = k
      · rw [show adjustA k g ((k₀, v₀) :: rest) = (k₀, g v₀) :: rest from by
          simp [adjustA, h0]]
        rw [keysA_cons, keysA_cons]
      · rw [show adjustA k g ((k₀, v₀) :: rest) = (k₀, v₀) :: adjustA k g rest from by
          simp [adjustA, h0]]
        rw [keysA_cons, keysA_cons, ih]

theorem lookupA_adjustA_self {α : Type} (k : String) (g : α → α) (l : List (String × α)) :
    lookupA k (adjustA k g l) = (lookupA k l).map g := by
  induction l with
  | nil => simp [adjustA, lookupA]
  | cons p rest ih =>
      obtain ⟨k₀, v₀⟩ := p
      by_cases h0 : k₀ = k
      · simp [adjustA, h0, lookupA]
      · simp [adjustA, h0, lookupA, ih]

theorem lookupA_adjustA_ne {α : Type} {k k' : String} (g : α → α)
    (l : List (String × α)) (h : k' ≠ k) :
    lookupA k' (adjustA k g l) = lookupA k' l := by
  have hne : k ≠ k' := fun h' => h h'.symm
  induction l with
  | nil => simp [adjustA]
  | cons p rest ih =>
      obtain ⟨k₀, v₀⟩ := p
      by_cases h0 : k₀ = k
      · subst h0
        simp [adjustA, lookupA, if_neg hne]
      · simp only [adjustA, if_neg h0, lookupA]
        by_cases h1 : k₀ = k'
        · simp [h1]
        · simp [h1, ih]

theorem mem_adjustA {α : Type} {k : String} {g : α → α} {l : List (String × α)}
    {p : String × α} (h : p ∈ adjustA k g l) :
    p ∈ l ∨ ∃ v, (k, v) ∈ l ∧ p = (k, g v) := by
  induction l with
  | nil => simp [adjustA] at h
  | cons q rest ih =>
      obtain ⟨k₀, v₀⟩ := q
      by_cases h0 : k₀ = k
      · subst h0
        simp only [adjustA, if_pos rfl] at h
        rcases List.mem_cons.mp h with h1 | h1
        · exact Or.inr ⟨v₀, by simp, h1⟩
        · exact Or.inl (List.mem_cons_of_mem _ h1)
      · simp only [adjustA, if_neg h0] at h
        rcases List.mem_cons.mp h with h1 | h1
        · exact Or.inl (by simp [h1])
        · rcases ih h1 with h2 | h2
          · exact Or.inl (List.mem_cons_of_mem _ h2)
          · obtain ⟨v, hv, hp⟩ := h2
            exact Or.inr ⟨v, List.mem_cons_of_mem _ hv, hp⟩

theorem lookupA_mem {α : Type} {k : String} {l : List (String × α)} {v : α}
    (h : lookupA k l = some v) : (k, v) ∈ l := by
  induction l with
  | nil => simp [lookupA] at h
  | cons p rest ih =>
      obtain ⟨k₀, v₀⟩ := p
      by_cases h0 : k₀ = k
      · subst h0
        simp only [lookupA, if_pos rfl] at h
        cases h
        exact List.mem_cons_self _ _
      · simp only [lookupA, if_neg h0] at h
        exact List.mem_cons_of_mem _ (ih h)

theorem mem_value_unique {α : Type} {k : String} {a b : α} {l : List (String × α)}
    (hnd : (keysA l).Nodup) (ha : (k, a) ∈ l) (hb : (k, b) ∈ l) : a = b := by
  induction l with
  | nil => simp at ha
  | cons p rest ih =>
      obtain ⟨k₀, v₀⟩ := p
      rw [keysA_cons, List.nodup_cons] at hnd
      rcases List.mem_cons.mp ha with h1 | h1 <;>
        rcases List.mem_cons.mp hb with h2 | h2
      · cases h1; cases h2; rfl
      · cases h1
        exact absurd (List.mem_map_of_mem Prod.fst h2) hnd.1
      · cases h2
        exact absurd (List.mem_map_of_mem Prod.fst h1) hnd.1
      · exact ih hnd.2 h1 h2

theorem lookupA_eq_of_mem_nodup {α : Type} {k : String} {v : α}
    {l : List (String × α)} (hnd : (keysA l).Nodup) (h : (k, v) ∈ l) :
    lookupA k l = some v := by
  rcases hs : lookupA k l with _ | w
  · exact absurd hs (by
      intro hnone
      have := lookupA_isSome_of_mem h
      rw [hnone] at this
      simp at this)
  · rw [mem_value_unique hnd h (lookupA_mem hs)]

theorem mem_removeA_of_ne {α : Type} {k : String} {l : List (String × α)}
    {p : String × α} (h : p ∈ l) (hne : p.1 ≠ k) : p ∈ removeA k l := by
  induction l with
  | nil => simp at h
  | cons q rest ih =>
      obtain ⟨k₀, v₀⟩ := q
      by_cases h0 : k₀ = k
      · subst h0
        simp only [removeA, if_pos rfl]
        rcases List.mem_cons.mp h with h1 | h1
        · exact absurd (by rw [h1]) hne
        · exact h1
      · simp only [removeA, if_neg h0]
        rcases List.mem_cons.mp h with h1 | h1
        · exact h1 ▸ List.mem_cons_self _ _
        · exact List.mem_cons_of_mem _ (ih h1)

/-- Adjusting the value just written by `insertA` at the same key rewrites
that value in place. -/
theorem adjustA_insertA_self {α : Type} (k : String) (g : α → α) (v : α)
    (l : List (String × α)) :
    adjustA k g (insertA k v l) = insertA k (g v) l := by
  induction l with
  | nil => simp [insertA, adjustA]
  | cons p rest ih =>
      obtain ⟨k₀, v₀⟩ := p
      by_cases h0 : k₀ = k
      · subst h0
        simp [insertA, adjustA]
      · simp [insertA, adjustA, h0, ih]

/-! ## Lemmas about the JSON backend operations -/

theorem storeInv_create_entry {st : Store} (fi : SyncFileInfo)
    (h : StoreInv st) : StoreInv (LocalJson.create_entry st fi) := by
  obtain ⟨hnd, hmem⟩ := h
  refine ⟨nodup_keysA_insertA _ _ hnd, ?_⟩
  intro p hp
  rcases mem_insertA hp with h1 | h1
  · subst h1; exact ⟨rfl, rfl⟩
  · exact hmem p h1

theorem storeInv_update_entry {st : Store} (fi : SyncFileInfo) (e : Record)
    (h : StoreInv st) : StoreInv (LocalJson.update_entry st fi e) := by
  obtain ⟨hnd, hmem⟩ := h
  refine ⟨nodup_keysA_insertA _ _ (nodup_keysA_removeA _ hnd), ?_⟩
  intro p hp
  rcases mem_insertA hp with h1 | h1
  · subst h1; exact ⟨rfl, rfl⟩
  · exact hmem p (mem_of_mem_removeA h1)

theorem storeInv_delete_entry {st : Store} (e : Record)
    (h : StoreInv st) : StoreInv (LocalJson.delete_entry st e) := by
  obtain ⟨hnd, hmem⟩ := h
  unfold LocalJson.delete_entry
  split
  · exact ⟨nodup_keysA_removeA _ hnd, fun p hp => hmem p (mem_of_mem_removeA hp)⟩
  · exact ⟨hnd, hmem⟩

theorem lookupA_update_entry_self {st : Store} (fi : SyncFileInfo) (e : Record) :
    lookupA fi.hash (LocalJson.update_entry st fi e) =
      some { id := fi.hash, file_name := fi.file_name, raw_path := fi.raw_path,
             image_url := fi.image_url, tags := fi.tags, hash := fi.hash,
             extra := ((lookupA e.hash st).map Record.extra).getD [] } := by
  simp only [LocalJson.update_entry]
  exact lookupA_insertA_self _ _ _

theorem lookupA_update_entry_ne {st : Store} {k : String} (fi : SyncFileInfo)
    (e : Record) (h1 : k ≠ fi.hash) (h2 : k ≠ e.hash) :
    lookupA k (LocalJson.update_entry st fi e) = lookupA k st := by
  simp only [LocalJson.update_entry]
  rw [lookupA_insertA_ne _ _ h1, lookupA_removeA_ne _ h2]

theorem lookupA_create_entry_ne {st : Store} {k : String} (fi : SyncFileInfo)
    (h1 : k ≠ fi.hash) :
    lookupA k (LocalJson.create_entry st fi) = lookupA k st := by
  simp only [LocalJson.create_entry]
  rw [lookupA_insertA_ne _ _ h1]

theorem lookupA_delete_entry_ne {st : Store} {k : String} (e : Record)
    (h : k ≠ e.hash) :
    lookupA k (LocalJson.delete_entry st e) = lookupA k st := by
  unfold LocalJson.delete_entry
  split
  · exact lookupA_removeA_ne _ h
  · rfl

theorem lookupA_delete_entry_self {st : Store} (e : Record)
    (hnd : (keysA st).Nodup) :
    lookupA e.hash (LocalJson.delete_entry st e) = none := by
  unfold LocalJson.delete_entry
  split
  · exact lookupA_removeA_self_of_nodup hnd
  · rename_i hs
    simpa using hs

theorem mem_of_mem_delete_entry {st : Store} {e : Record} {p : String × Record}
    (h : p ∈ LocalJson.delete_entry st e) : p ∈ st := by
  unfold LocalJson.delete_entry at h
  split at h
  · exact mem_of_mem_removeA h
  · exact h

/-! ## Lemmas about `findByName` and `scannedByHash` -/

theorem findByName_spec {st : Store} {name : String} {m : Record}
    (h : findByName st name = some m) :
    (∃ k, (k, m) ∈ st) ∧ m.file_name = name := by
  induction st with
  | nil => simp [findByName] at h
  | cons p rest ih =>
      obtain ⟨k₀, r₀⟩ := p
      by_cases h0 : r₀.file_name = name
      · simp only [findByName, if_pos h0] at h
        cases h
        exact ⟨⟨k₀, List.mem_cons_self _ _⟩, h0⟩
      · simp only [findByName, if_neg h0] at h
        obtain ⟨⟨k, hk⟩, hn⟩ := ih h
        exact ⟨⟨k, List.mem_cons_of_mem _ hk⟩, hn⟩

theorem mem_keysA_insertA {α : Type} (k k' : String) (v : α)
    (l : List (String × α)) :
    (k' ∈ keysA (insertA k v l)) ↔ (k' = k ∨ k' ∈ keysA l) := by
  rw [keysA_insertA]
  by_cases hm : k ∈ keysA l
  · rw [if_pos hm]
    constructor
    · exact Or.inr
    · rintro (h | h)
      · exact h ▸ hm
      · exact h
  · rw [if_neg hm, List.mem_append, List.mem_singleton]
    exact or_comm

theorem scannedByHash_foldl (P : FileInfo → Prop) :
    ∀ (ws : List FileInfo) (acc : List (String × FileInfo)),
      (∀ f ∈ ws, P f) →
      (∀ p ∈ acc, p.2.hash = p.1 ∧ P p.2) →
      (keysA acc).Nodup →
      (∀ p ∈ ws.foldl (fun d f => insertA f.hash f d) acc,
          p.2.hash = p.1 ∧ P p.2) ∧
      (keysA (ws.foldl (fun d f => insertA f.hash f d) acc)).Nodup := by
  intro ws
  induction ws with
  | nil => intro acc _ h2 h3; exact ⟨h2, h3⟩
  | cons f ws ih =>
      intro acc h1 h2 h3
      simp only [List.foldl_cons]
      refine ih (insertA f.hash f acc) (fun g hg => h1 g (List.mem_cons_of_mem _ hg))
        ?_ (nodup_keysA_insertA _ _ h3)
      intro p hp
      rcases mem_insertA hp with hp1 | hp1
      · subst hp1
        exact ⟨rfl, h1 f (List.mem_cons_self _ _)⟩
      · exact h2 p hp1

theorem scannedByHash_spec (scanned : List FileInfo) :
    (∀ p ∈ scannedByHash scanned, p.2.hash = p.1 ∧ p.2 ∈ scanned) ∧
    (keysA (scannedByHash scanned)).Nodup := by
  unfold scannedByHash
  exact scannedByHash_foldl (· ∈ scanned) scanned [] (fun f hf => hf)
    (by simp) (by simp [keysA])

theorem mem_keysA_scannedByHash_foldl :
    ∀ (ws : List FileInfo) (acc : List (String × FileInfo)) (k : String),
      (k ∈ keysA (ws.foldl (fun d f => insertA f.hash f d) acc)) ↔
        (k ∈ keysA acc ∨ k ∈ ws.map FileInfo.hash) := by
  intro ws
  induction ws with
  | nil => intro acc k; simp
  | cons f ws ih =>
      intro acc k
      simp only [List.foldl_cons, List.map_cons, List.mem_cons]
      rw [ih, mem_keysA_insertA]
      tauto

theorem mem_keysA_scannedByHash (scanned : List FileInfo) (k : String) :
    k ∈ keysA (scannedByHash scanned) ↔ k ∈ scanned.map FileInfo.hash := by
  unfold scannedByHash
  rw [mem_keysA_scannedByHash_foldl]
  simp [keysA]

/-! ## Engine branch analysis -/

/-- The hashes passed to `create_entry` calls in a trace. -/
def createdHashes (tr : List Effect) : List String :=
  tr.filterMap (fun eff =>
    match eff with
    | Effect.createE h => some h
    | _ => none)

/-- No `delete_entry` call occurs in the trace. -/
def noDeletes (tr : List Effect) : Prop := ∀ h, Effect.deleteE h ∉ tr

/-- Writing a record with `update_entry` and then mutating, in place, fields
of the stored object to values it already carries leaves the store as the
plain `update_entry` result. -/
theorem adjustA_update_entry (st : Store) (f : FileInfo) (url : String)
    (e : Record) (g : Record → Record)
    (hg : ∀ r : Record, r.raw_path = f.raw_path → r.file_name = f.file_name →
        r.hash = f.hash → g r = r) :
    adjustA f.hash g (LocalJson.update_entry st (mkSync f (some url)) e)
      = LocalJson.update_entry st (mkSync f (some url)) e := by
  simp only [LocalJson.update_entry, mkSync]
  rw [adjustA_insertA_self]
  rw [hg _ rfl rfl rfl]

/-- The in-memory mutation of the update branch (line 255) rewrites a field
the just-written record already carries. -/
theorem update_store_raw (st : Store) (f : FileInfo) (url : String) (e : Record) :
    adjustA f.hash (fun r => { r with raw_path := f.raw_path })
        (LocalJson.update_entry st (mkSync f (some url)) e)
      = LocalJson.update_entry st (mkSync f (some url)) e := by
  apply adjustA_update_entry
  intro r h1 h2 h3
  cases r
  simp_all

/-- The in-memory mutation of the rename branch (lines 230–231). -/
theorem update_store_raw_name (st : Store) (f : FileInfo) (url : String) (e : Record) :
    adjustA f.hash (fun r => { r with raw_path := f.raw_path, file_name := f.file_name })
        (LocalJson.update_entry st (mkSync f (some url)) e)
      = LocalJson.update_entry st (mkSync f (some url)) e := by
  apply adjustA_update_entry
  intro r h1 h2 h3
  cases r
  simp_all

/-- The in-memory mutation of the content-changed branch (lines 299–300). -/
theorem update_store_raw_hash (st : Store) (f : FileInfo) (url : String) (e : Record) :
    adjustA f.hash (fun r => { r with raw_path := f.raw_path, hash := f.hash })
        (LocalJson.update_entry st (mkSync f (some url)) e)
      = LocalJson.update_entry st (mkSync f (some url)) e := by
  apply adjustA_update_entry
  intro r h1 h2 h3
  cases r
  simp_all

/-- `renameFinish` writes the backend update and returns success; the
in-memory mutation leaves the store at the `update_entry` result. -/
theorem renameFinish_eq (o : Oracle) (st : Store) (e : Record) (f : FileInfo)
    (dn url pid : String) (tr : List Effect) :
    renameFinish o st e f dn url pid tr =
      (LocalJson.update_entry st (mkSync f (some (create_new_url url))) e,
       tr ++ [Effect.displayE pid dn, Effect.updateE e.hash f.hash], true) := by
  unfold renameFinish
  dsimp only
  rw [update_store_raw_name]

/-- Branch characterisation of one engine item: a processed scanned file
lands in exactly one of NO-OP, matched write (rename or update), content
changed, new file, or aborted by an uncaught upload exception. -/
theorem processItem_cases (o : Oracle) (c : String) (ut : Bool) (st : Store)
    (f : FileInfo) :
    (∃ e, lookupA f.hash st = some e ∧
        pyLower e.file_name = pyLower f.file_name ∧
        f.raw_path = e.raw_path ∧ (ut = true → e.tags = f.tags) ∧
        processItem o c ut st f = (st, [], true)) ∨
    (∃ e url tr, lookupA f.hash st = some e ∧
        processItem o c ut st f =
          (LocalJson.update_entry st (mkSync f (some url)) e, tr, true) ∧
        noDeletes tr ∧ createdHashes tr = []) ∨
    (∃ m url tr, lookupA f.hash st = none ∧
        findByName st f.file_name = some m ∧ m.file_name = f.file_name ∧
        processItem o c ut st f =
          (LocalJson.update_entry st (mkSync f (some url)) m, tr, true) ∧
        noDeletes tr ∧ createdHashes tr = []) ∨
    (∃ url tr, lookupA f.hash st = none ∧ findByName st f.file_name = none ∧
        processItem o c ut st f =
          (LocalJson.create_entry st (mkSync f (some url)), tr, true) ∧
        noDeletes tr ∧ createdHashes tr = [f.hash]) ∨
    (∃ err tr, o.upload f = Except.error err ∧
        processItem o c ut st f = (st, tr, false) ∧
        noDeletes tr ∧ createdHashes tr = []) := by
  unfold processItem
  rcases hl : lookupA f.hash st with _ | e
  · -- hash not found: content-changed or new file
    rcases hf : findByName st f.file_name with _ | m
    · rcases hu : o.upload f with err | resp
      · refine Or.inr (Or.inr (Or.inr (Or.inr
          ⟨err, [Effect.uploadE f], rfl, rfl, ?_, ?_⟩)))
        · intro h; simp [noDeletes]
        · simp [createdHashes]
      · exact Or.inr (Or.inr (Or.inr (Or.inl
          ⟨create_new_url resp.secure_url,
           [Effect.uploadE f,
            Effect.displayE resp.public_id (displayName f.file_name),
            Effect.createE f.hash],
           rfl, rfl, rfl,
           by intro h; simp [noDeletes],
           by simp [createdHashes]⟩)))
    · rcases hu : o.upload f with err | resp
      · refine Or.inr (Or.inr (Or.inr (Or.inr
          ⟨err,
           [Effect.destroyE (extract_public_id (m.image_url.getD "")),
            Effect.uploadE f],
           rfl, rfl, ?_, ?_⟩)))
        · intro h; simp [noDeletes]
        · simp [createdHashes]
      · refine Or.inr (Or.inr (Or.inl
          ⟨m, create_new_url resp.secure_url,
           [Effect.destroyE (extract_public_id (m.image_url.getD "")),
            Effect.uploadE f,
            Effect.displayE resp.public_id (displayName f.file_name),
            Effect.updateE m.hash f.hash],
           rfl, rfl, (findByName_spec hf).2, ?_, ?_, ?_⟩))
        · dsimp only
          rw [update_store_raw_hash]
        · intro h; simp [noDeletes]
        · simp [createdHashes]
  · -- hash found
    dsimp only
    by_cases hn : pyLower e.file_name ≠ pyLower f.file_name
    · -- RENAME branch
      rw [if_pos hn]
      rcases hr : o.rename (extract_public_id (e.image_url.getD ""))
          (c ++ "/" ++ pyLower (pyStem f.file_name)) with err | u
      · -- rename raised: fallback upload
        unfold renameFallback
        rcases hu : o.upload f with err2 | resp
        · refine Or.inr (Or.inr (Or.inr (Or.inr
            ⟨err2,
             [Effect.renameE (extract_public_id (e.image_url.getD ""))
                (c ++ "/" ++ pyLower (pyStem f.file_name)),
              Effect.uploadE f],
             rfl, rfl, ?_, ?_⟩)))
          · intro h; simp [noDeletes]
          · simp [createdHashes]
        · refine Or.inr (Or.inl
            ⟨e, create_new_url resp.secure_url,
             [Effect.renameE (extract_public_id (e.image_url.getD ""))
                (c ++ "/" ++ pyLower (pyStem f.file_name)),
              Effect.uploadE f] ++
               [Effect.displayE resp.public_id (displayName f.file_name),
                Effect.updateE e.hash f.hash],
             rfl, ?_, ?_, ?_⟩)
          · dsimp only
            rw [renameFinish_eq]
            simp
          · intro h; simp [noDeletes]
          · simp [createdHashes]
      · rcases hres : o.resource (c ++ "/" ++ pyLower (pyStem f.file_name))
            with err2 | new_url
        · -- resource fetch raised inside the try: fallback upload
          unfold renameFallback
          rcases hu : o.upload f with err3 | resp
          · refine Or.inr (Or.inr (Or.inr (Or.inr
              ⟨err3,
               [Effect.renameE (extract_public_id (e.image_url.getD ""))
                  (c ++ "/" ++ pyLower (pyStem f.file_name)),
                Effect.resourceE (c ++ "/" ++ pyLower (pyStem f.file_name)),
                Effect.uploadE f],
               rfl, rfl, ?_, ?_⟩)))
            · intro h; simp [noDeletes]
            · simp [createdHashes]
          · refine Or.inr (Or.inl
              ⟨e, create_new_url resp.secure_url,
               [Effect.renameE (extract_public_id (e.image_url.getD ""))
                  (c ++ "/" ++ pyLower (pyStem f.file_name)),
                Effect.resourceE (c ++ "/" ++ pyLower (pyStem f.file_name)),
                Effect.uploadE f] ++
                 [Effect.displayE resp.public_id (displayName f.file_name),
                  Effect.updateE e.hash f.hash],
               rfl, ?_, ?_, ?_⟩)
            · dsimp only
              rw [renameFinish_eq]
              simp
            · intro h; simp [noDeletes]
            · simp [createdHashes]
        · -- rename and resource succeeded
          refine Or.inr (Or.inl
            ⟨e, create_new_url new_url,
             [Effect.renameE (extract_public_id (e.image_url.getD ""))
                (c ++ "/" ++ pyLower (pyStem f.file_name)),
              Effect.resourceE (c ++ "/" ++ pyLower (pyStem f.file_name))] ++
               [Effect.displayE (c ++ "/" ++ pyLower (pyStem f.file_name))
                  (displayName f.file_name),
                Effect.updateE e.hash f.hash],
             rfl, ?_, ?_, ?_⟩)
          · dsimp only
            rw [renameFinish_eq]
          · intro h; simp [noDeletes]
          · simp [createdHashes]
    · -- name unchanged: UPDATE or NO-OP
      rw [if_neg hn]
      push_neg at hn
      by_cases hcond : f.raw_path ≠ e.raw_path ∨ (ut = true ∧ e.tags ≠ f.tags)
      · rw [if_pos hcond]
        rcases hu : o.upload f with err | resp
        · refine Or.inr (Or.inr (Or.inr (Or.inr
            ⟨err, [Effect.uploadE f], rfl, rfl, ?_, ?_⟩)))
          · intro h; simp [noDeletes]
          · simp [createdHashes]
        · refine Or.inr (Or.inl
            ⟨e, create_new_url resp.secure_url,
             [Effect.uploadE f,
              Effect.displayE resp.public_id (displayName f.file_name),
              Effect.updateE e.hash f.hash],
             rfl, ?_, ?_, ?_⟩)
          · dsimp only
            rw [update_store_raw]
          · intro h; simp [noDeletes]
          · simp [createdHashes]
      · rw [if_neg hcond]
        have hcomp := hcond
        push_neg at hcomp
        exact Or.inl ⟨e, rfl, hn, hcomp.1, hcomp.2, rfl⟩


/-- The record `create_entry` stores is readable back at the new key. -/
theorem lookupA_create_entry_self (st : Store) (fi : SyncFileInfo) :
    lookupA fi.hash (LocalJson.create_entry st fi) =
      some { id := fi.hash, file_name := fi.file_name, raw_path := fi.raw_path,
             image_url := fi.image_url, tags := fi.tags, hash := fi.hash,
             extra := [] } := by
  simp only [LocalJson.create_entry]
  exact lookupA_insertA_self _ _ _

/-- Processing one item preserves the store invariant. -/
theorem processItem_storeInv (o : Oracle) (c : String) (ut : Bool) (st : Store)
    (f : FileInfo) (h : StoreInv st) : StoreInv (processItem o c ut st f).1 := by
  rcases processItem_cases o c ut st f with
    ⟨e, _, _, _, _, hpe⟩ | ⟨e, url, tr, _, hpe, _, _⟩ |
    ⟨m, url, tr, _, _, _, hpe, _, _⟩ | ⟨url, tr, _, _, hpe, _, _⟩ |
    ⟨err, tr, _, hpe, _, _⟩
  · rw [hpe]; exact h
  · rw [hpe]; exact storeInv_update_entry _ _ h
  · rw [hpe]; exact storeInv_update_entry _ _ h
  · rw [hpe]; exact storeInv_create_entry _ h
  · rw [hpe]; exact h

/-- Processing one item never touches an entry whose key is not the item's
hash and whose lower-cased name differs from the item's. -/
theorem processItem_preserves_other (o : Oracle) (c : String) (ut : Bool)
    (st : Store) (f : FileInfo) {h0 : String} {e0 : Record}
    (hinv : StoreInv st) (hl0 : lookupA h0 st = some e0)
    (hh : h0 ≠ f.hash) (hn : pyLower e0.file_name ≠ pyLower f.file_name) :
    lookupA h0 (processItem o c ut st f).1 = some e0 := by
  rcases processItem_cases o c ut st f with
    ⟨e, _, _, _, _, hpe⟩ | ⟨e, url, tr, hle, hpe, _, _⟩ |
    ⟨m, url, tr, _, hfm, hmn, hpe, _, _⟩ | ⟨url, tr, _, _, hpe, _, _⟩ |
    ⟨err, tr, _, hpe, _, _⟩
  · rw [hpe]; exact hl0
  · rw [hpe]
    have he : e.hash = f.hash := (hinv.2 _ (lookupA_mem hle)).1
    rw [lookupA_update_entry_ne _ _ hh (by rw [he]; exact hh)]
    exact hl0
  · rw [hpe]
    obtain ⟨⟨km, hkm⟩, _⟩ := findByName_spec hfm
    have hmh : m.hash = km := (hinv.2 _ hkm).1
    have hne : h0 ≠ m.hash := by
      intro hq
      rw [hmh] at hq
      subst hq
      have := mem_value_unique hinv.1 (lookupA_mem hl0) hkm
      subst this
      exact hn (by rw [hmn])
    rw [lookupA_update_entry_ne _ _ hh hne]
    exact hl0
  · rw [hpe]
    rw [lookupA_create_entry_ne _ hh]
    exact hl0
  · rw [hpe]; exact hl0

/-- After a successfully processed item, the store has a record under the
item's hash whose lower-cased name, raw path and (when tag sync is on) tags
agree with the scanned file. -/
theorem processItem_establishes (o : Oracle) (c : String) (ut : Bool)
    (st : Store) (f : FileInfo)
    (hok : (processItem o c ut st f).2.2 = true) :
    ∃ r, lookupA f.hash (processItem o c ut st f).1 = some r ∧
      pyLower r.file_name = pyLower f.file_name ∧
      r.raw_path = f.raw_path ∧ (ut = true → r.tags = f.tags) := by
  rcases processItem_cases o c ut st f with
    ⟨e, hle, hname, hraw, htags, hpe⟩ | ⟨e, url, tr, _, hpe, _, _⟩ |
    ⟨m, url, tr, _, _, _, hpe, _, _⟩ | ⟨url, tr, _, _, hpe, _, _⟩ |
    ⟨err, tr, _, hpe, _, _⟩
  · refine ⟨e, ?_, hname, hraw.symm, htags⟩
    rw [hpe]
    exact hle
  · refine ⟨{ id := f.hash, file_name := f.file_name, raw_path := f.raw_path,
              image_url := some url, tags := f.tags, hash := f.hash,
              extra := ((lookupA e.hash st).map Record.extra).getD [] },
      ?_, rfl, rfl, fun _ => rfl⟩
    rw [hpe]
    exact lookupA_update_entry_self (mkSync f (some url)) e
  · refine ⟨{ id := f.hash, file_name := f.file_name, raw_path := f.raw_path,
              image_url := some url, tags := f.tags, hash := f.hash,
              extra := ((lookupA m.hash st).map Record.extra).getD [] },
      ?_, rfl, rfl, fun _ => rfl⟩
    rw [hpe]
    exact lookupA_update_entry_self (mkSync f (some url)) m
  · refine ⟨{ id := f.hash, file_name := f.file_name, raw_path := f.raw_path,
              image_url := some url, tags := f.tags, hash := f.hash,
              extra := [] },
      ?_, rfl, rfl, fun _ => rfl⟩
    rw [hpe]
    exact lookupA_create_entry_self st (mkSync f (some url))
  · rw [hpe] at hok
    simp at hok

/-- Every per-item trace is delete-free. -/
theorem processItem_noDeletes (o : Oracle) (c : String) (ut : Bool)
    (st : Store) (f : FileInfo) : noDeletes (processItem o c ut st f).2.1 := by
  rcases processItem_cases o c ut st f with
    ⟨e, _, _, _, _, hpe⟩ | ⟨e, url, tr, _, hpe, hnd, _⟩ |
    ⟨m, url, tr, _, _, _, hpe, hnd, _⟩ | ⟨url, tr, _, _, hpe, hnd, _⟩ |
    ⟨err, tr, _, hpe, hnd, _⟩
  · rw [hpe]; intro h; simp
  · rw [hpe]; exact hnd
  · rw [hpe]; exact hnd
  · rw [hpe]; exact hnd
  · rw [hpe]; exact hnd

/-- Every per-item trace creates either nothing or exactly the item's hash. -/
theorem processItem_created (o : Oracle) (c : String) (ut : Bool)
    (st : Store) (f : FileInfo) :
    createdHashes (processItem o c ut st f).2.1 = [] ∨
    createdHashes (processItem o c ut st f).2.1 = [f.hash] := by
  rcases processItem_cases o c ut st f with
    ⟨e, _, _, _, _, hpe⟩ | ⟨e, url, tr, _, hpe, _, hc⟩ |
    ⟨m, url, tr, _, _, _, hpe, _, hc⟩ | ⟨url, tr, _, _, hpe, _, hc⟩ |
    ⟨err, tr, _, hpe, _, hc⟩
  · rw [hpe]; left; simp [createdHashes]
  · rw [hpe]; left; exact hc
  · rw [hpe]; left; exact hc
  · rw [hpe]; right; exact hc
  · rw [hpe]; left; exact hc

theorem noDeletes_append {t1 t2 : List Effect} (h1 : noDeletes t1)
    (h2 : noDeletes t2) : noDeletes (t1 ++ t2) := by
  intro h hm
  rcases List.mem_append.mp hm with hx | hx
  · exact h1 h hx
  · exact h2 h hx

theorem createdHashes_append (t1 t2 : List Effect) :
    createdHashes (t1 ++ t2) = createdHashes t1 ++ createdHashes t2 := by
  simp [createdHashes]

/-- The additions/updates loop issues no `delete_entry` call. -/
theorem runAdditions_noDeletes (o : Oracle) (c : String) (ut : Bool) :
    ∀ (items : List (String × FileInfo)) (st : Store),
      noDeletes (runAdditions o c ut st items).2.1 := by
  intro items
  induction items with
  | nil => intro st h hm; simp [runAdditions] at hm
  | cons p rest ih =>
      intro st
      obtain ⟨k, f⟩ := p
      rcases hpi : processItem o c ut st f with ⟨st1, tr1, ok1⟩
      have hnd1 := processItem_noDeletes o c ut st f
      rw [hpi] at hnd1
      cases ok1
      · simp only [runAdditions, hpi]
        exact hnd1
      · rcases hra : runAdditions o c ut st1 rest with ⟨st2, tr2, ok2⟩
        have hnd2 := ih st1
        rw [hra] at hnd2
        simp only [runAdditions, hpi, hra]
        exact noDeletes_append hnd1 hnd2

/-- The hashes created by the additions/updates loop are drawn, in order,
from the processed item keys. -/
theorem runAdditions_created_sublist (o : Oracle) (c : String) (ut : Bool) :
    ∀ (items : List (String × FileInfo)) (st : Store),
      List.Sublist (createdHashes (runAdditions o c ut st items).2.1)
        (items.map (fun p => p.2.hash)) := by
  intro items
  induction items with
  | nil => intro st; simp [runAdditions, createdHashes]
  | cons p rest ih =>
      intro st
      obtain ⟨k, f⟩ := p
      rcases hpi : processItem o c ut st f with ⟨st1, tr1, ok1⟩
      have hc := processItem_created o c ut st f
      rw [hpi] at hc
      dsimp only at hc
      cases ok1
      · simp only [runAdditions, hpi, List.map_cons]
        rcases hc with hc | hc
        · rw [hc]
          exact List.nil_sublist _
        · rw [hc]
          exact (List.nil_sublist _).cons₂ _
      · rcases hra : runAdditions o c ut st1 rest with ⟨st2, tr2, ok2⟩
        have ih1 := ih st1
        rw [hra] at ih1
        dsimp only at ih1
        simp only [runAdditions, hpi, hra, List.map_cons]
        rw [createdHashes_append]
        rcases hc with hc | hc
        · rw [hc, List.nil_append]
          exact ih1.cons _
        · rw [hc, List.singleton_append]
          exact ih1.cons₂ _

/-- `delete_entry` keeps the keys duplicate-free. -/
theorem nodup_keysA_delete_entry {st : Store} (e : Record)
    (h : (keysA st).Nodup) : (keysA (LocalJson.delete_entry st e)).Nodup := by
  unfold LocalJson.delete_entry
  split
  · exact nodup_keysA_removeA _ h
  · exact h

/-- The deletion-pass trace contributed by one snapshot entry. -/
def delTraceOf (scanned : List FileInfo) (p : String × Record) : List Effect :=
  if foundLocally scanned p.2 then []
  else [Effect.deleteE p.2.hash,
        Effect.destroyE (extract_public_id (p.2.image_url.getD ""))]

/-- Closed form of the deletion-pass trace: one `delete_entry` plus one
best-effort `destroy` for every snapshot entry whose lower-cased name
matches no scanned file, in snapshot order. -/
theorem runDeletions_trace (o : Oracle) (scanned : List FileInfo) :
    ∀ (snapshot : List (String × Record)) (st : Store),
      (runDeletions o scanned st snapshot).2 =
        snapshot.flatMap (delTraceOf scanned) := by
  intro snapshot
  induction snapshot with
  | nil => intro st; simp [runDeletions]
  | cons p rest ih =>
      intro st
      obtain ⟨k, e⟩ := p
      by_cases hf : foundLocally scanned e = true
      · simp only [runDeletions, if_pos hf, List.flatMap_cons, delTraceOf, if_pos hf,
          List.nil_append]
        exact ih st
      · rcases hrd : runDeletions o scanned (LocalJson.delete_entry st e) rest
            with ⟨st2, tr2⟩
        have ih1 := ih (LocalJson.delete_entry st e)
        rw [hrd] at ih1
        simp only [runDeletions, if_neg hf, hrd, List.flatMap_cons, delTraceOf, if_neg hf]
        dsimp only at ih1
        rw [ih1]
        rfl

/-- When every snapshot entry's name matches some scanned file the deletion
pass does nothing. -/
theorem runDeletions_noop (o : Oracle) (scanned : List FileInfo) :
    ∀ (snapshot : List (String × Record)) (st : Store),
      (∀ p ∈ snapshot, foundLocally scanned p.2 = true) →
      runDeletions o scanned st snapshot = (st, []) := by
  intro snapshot
  induction snapshot with
  | nil => intro st _; simp [runDeletions]
  | cons p rest ih =>
      intro st hall
      obtain ⟨k, e⟩ := p
      have hf : foundLocally scanned e = true := hall (k, e) (List.mem_cons_self _ _)
      simp only [runDeletions, if_pos hf]
      exact ih st (fun q hq => hall q (List.mem_cons_of_mem _ hq))

/-- The deletion pass leaves untouched every key that no unmatched snapshot
entry carries as its hash. -/
theorem runDeletions_lookup_of (o : Oracle) (scanned : List FileInfo) :
    ∀ (snapshot : List (String × Record)) (st : Store) (k : String),
      (∀ p ∈ snapshot, foundLocally scanned p.2 = false → p.2.hash ≠ k) →
      lookupA k (runDeletions o scanned st snapshot).1 = lookupA k st := by
  intro snapshot
  induction snapshot with
  | nil => intro st k _; simp [runDeletions]
  | cons p rest ih =>
      intro st k hall
      obtain ⟨k₀, e⟩ := p
      by_cases hf : foundLocally scanned e = true
      · simp only [runDeletions, if_pos hf]
        exact ih st k (fun q hq => hall q (List.mem_cons_of_mem _ hq))
      · rcases hrd : runDeletions o scanned (LocalJson.delete_entry st e) rest
            with ⟨st2, tr2⟩
        have hne : e.hash ≠ k :=
          hall (k₀, e) (List.mem_cons_self _ _) (Bool.eq_false_iff.mpr hf)
        have ih1 := ih (LocalJson.delete_entry st e) k
          (fun q hq => hall q (List.mem_cons_of_mem _ hq))
        rw [hrd] at ih1
        simp only [runDeletions, if_neg hf, hrd]
        dsimp only at ih1
        rw [ih1]
        exact lookupA_delete_entry_ne _ (fun hq => hne hq.symm)

/-- The deletion pass preserves the store invariant. -/
theorem runDeletions_storeInv (o : Oracle) (scanned : List FileInfo) :
    ∀ (snapshot : List (String × Record)) (st : Store),
      StoreInv st → StoreInv (runDeletions o scanned st snapshot).1 := by
  intro snapshot
  induction snapshot with
  | nil => intro st h; simpa [runDeletions] using h
  | cons p rest ih =>
      intro st h
      obtain ⟨k, e⟩ := p
      by_cases hf : foundLocally scanned e = true
      · simp only [runDeletions, if_pos hf]
        exact ih st h
      · rcases hrd : runDeletions o scanned (LocalJson.delete_entry st e) rest
            with ⟨st2, tr2⟩
        have ih1 := ih (LocalJson.delete_entry st e) (storeInv_delete_entry _ h)
        rw [hrd] at ih1
        simp only [runDeletions, if_neg hf, hrd]
        exact ih1

/-- After running the deletion pass over a snapshot of the store itself,
every surviving entry's name matches some scanned file. -/
theorem runDeletions_found_aux (o : Oracle) (scanned : List FileInfo) :
    ∀ (snapshot : List (String × Record)) (st : Store),
      (keysA st).Nodup →
      (∀ p ∈ snapshot, p.2.hash = p.1) →
      (∀ p ∈ st, p ∈ snapshot ∨ foundLocally scanned p.2 = true) →
      ∀ p ∈ (runDeletions o scanned st snapshot).1,
        foundLocally scanned p.2 = true := by
  intro snapshot
  induction snapshot with
  | nil =>
      intro st _ _ hcover p hp
      have := hcover p (by simpa [runDeletions] using hp)
      rcases this with h | h
      · simp at h
      · exact h
  | cons q rest ih =>
      intro st hnd hsn hcover
      obtain ⟨k₀, e⟩ := q
      have hek : e.hash = k₀ := hsn (k₀, e) (List.mem_cons_self _ _)
      by_cases hf : foundLocally scanned e = true
      · simp only [runDeletions, if_pos hf]
        refine ih st hnd (fun q hq => hsn q (List.mem_cons_of_mem _ hq)) ?_
        intro p hp
        rcases hcover p hp with h | h
        · rcases List.mem_cons.mp h with h1 | h1
          · right
            rw [h1]
            exact hf
          · exact Or.inl h1
        · exact Or.inr h
      · rcases hrd : runDeletions o scanned (LocalJson.delete_entry st e) rest
            with ⟨st2, tr2⟩
        have hnone : lookupA e.hash (LocalJson.delete_entry st e) = none :=
          lookupA_delete_entry_self e hnd
        have ih1 := ih (LocalJson.delete_entry st e)
          (nodup_keysA_delete_entry e hnd)
          (fun q hq => hsn q (List.mem_cons_of_mem _ hq)) ?cover
        case cover =>
          intro p hp
          have hpst : p ∈ st := mem_of_mem_delete_entry hp
          rcases hcover p hpst with h | h
          · rcases List.mem_cons.mp h with h1 | h1
            · exfalso
              have hp1 : p.1 = e.hash := by rw [h1, hek]
              have := lookupA_isSome_of_mem hp
              rw [hp1, hnone] at this
              simp at this
            · exact Or.inl h1
          · exact Or.inr h
        rw [hrd] at ih1
        simp only [runDeletions, if_neg hf, hrd]
        exact ih1

/-- Main invariant of the additions/updates loop: when the scanned items
carry pairwise distinct keys and pairwise distinct lower-cased names, a
completed loop (a) preserves the store invariant, (b) leaves untouched every
entry whose key is no item key and whose lower-cased name is no item name,
and (c) leaves, under every item key, a record agreeing with that item on
lower-cased name, raw path and (when tag sync is on) tags. -/
theorem runAdditions_invariant (o : Oracle) (c : String) (ut : Bool) :
    ∀ (items : List (String × FileInfo)) (st : Store),
      StoreInv st →
      (∀ p ∈ items, p.2.hash = p.1) →
      (keysA items).Nodup →
      (items.map (fun p => pyLower p.2.file_name)).Nodup →
      (runAdditions o c ut st items).2.2 = true →
      StoreInv (runAdditions o c ut st items).1 ∧
      (∀ h0 e0, lookupA h0 st = some e0 → h0 ∉ keysA items →
          pyLower e0.file_name ∉ items.map (fun p => pyLower p.2.file_name) →
          lookupA h0 (runAdditions o c ut st items).1 = some e0) ∧
      (∀ p ∈ items, ∃ r, lookupA p.1 (runAdditions o c ut st items).1 = some r ∧
          pyLower r.file_name = pyLower p.2.file_name ∧
          r.raw_path = p.2.raw_path ∧ (ut = true → r.tags = p.2.tags)) := by
  intro items
  induction items with
  | nil =>
      intro st hinv _ _ _ _
      refine ⟨by simpa [runAdditions] using hinv, ?_, by simp⟩
      intro h0 e0 hl0 _ _
      simpa [runAdditions] using hl0
  | cons q rest ih =>
      intro st hinv hkeys hnodk hnodn hok
      obtain ⟨k, f⟩ := q
      have hkf : f.hash = k := hkeys (k, f) (List.mem_cons_self _ _)
      rcases hpi : processItem o c ut st f with ⟨st1, tr1, ok1⟩
      cases ok1 with
      | false =>
          exfalso
          rw [show runAdditions o c ut st ((k, f) :: rest) = (st1, tr1, false) from by
            simp [runAdditions, hpi]] at hok
          simp at hok
      | true =>
          rcases hra : runAdditions o c ut st1 rest with ⟨st2, tr2, ok2⟩
          have hruneq : runAdditions o c ut st ((k, f) :: rest) = (st2, tr1 ++ tr2, ok2) := by
            simp [runAdditions, hpi, hra]
          rw [hruneq] at hok ⊢
          dsimp only at hok ⊢
          rw [keysA_cons, List.nodup_cons] at hnodk
          rw [List.map_cons, List.nodup_cons] at hnodn
          have hinv1 : StoreInv st1 := by
            have := processItem_storeInv o c ut st f hinv
            rwa [hpi] at this
          have ihres := ih st1 hinv1
            (fun p hp => hkeys p (List.mem_cons_of_mem _ hp)) hnodk.2 hnodn.2
            (by rw [hra]; exact hok)
          rw [hra] at ihres
          dsimp only at ihres
          obtain ⟨ih_inv, ih_frame, ih_est⟩ := ihres
          refine ⟨ih_inv, ?_, ?_⟩
          · -- frame
            intro h0 e0 hl0 hnk hnn
            rw [keysA_cons, List.mem_cons] at hnk
            rw [List.map_cons, List.mem_cons] at hnn
            push_neg at hnk hnn
            have hstep : lookupA h0 st1 = some e0 := by
              have := processItem_preserves_other o c ut st f hinv hl0
                (by rw [← hkf] at hnk; exact hnk.1) hnn.1
              rwa [hpi] at this
            exact ih_frame h0 e0 hstep hnk.2 hnn.2
          · -- established
            intro p hp
            rcases List.mem_cons.mp hp with hp1 | hp1
            · subst hp1
              have hok1 : (processItem o c ut st f).2.2 = true := by rw [hpi]
              obtain ⟨r, hr, hrn, hrp, hrt⟩ :=
                processItem_establishes o c ut st f hok1
              rw [hpi] at hr
              dsimp only at hr
              rw [hkf] at hr
              refine ⟨r, ?_, hrn, hrp, hrt⟩
              refine ih_frame k r hr hnodk.1 ?_
              rw [hrn]
              exact hnodn.1
            · exact ih_est p hp1

/-- When every item already has a matching record (same key, lower-equal
name, equal raw path, and equal tags when tag sync is on), the whole
additions loop is a no-op. -/
theorem runAdditions_noop (o : Oracle) (c : String) (ut : Bool) :
    ∀ (items : List (String × FileInfo)) (st : Store),
      (∀ p ∈ items, p.2.hash = p.1 ∧ ∃ r, lookupA p.1 st = some r ∧
          pyLower r.file_name = pyLower p.2.file_name ∧
          r.raw_path = p.2.raw_path ∧ (ut = true → r.tags = p.2.tags)) →
      runAdditions o c ut st items = (st, [], true) := by
  intro items
  induction items with
  | nil => intro st _; simp [runAdditions]
  | cons q rest ih =>
      intro st hall
      obtain ⟨k, f⟩ := q
      obtain ⟨hkf, r, hr, hrn, hrp, hrt⟩ := hall (k, f) (List.mem_cons_self _ _)
      dsimp only at hkf hr hrn hrp hrt
      have hpi : processItem o c ut st f = (st, [], true) := by
        unfold processItem
        rw [← hkf] at hr
        rw [hr]
        dsimp only
        rw [if_neg (by simp [hrn]), if_neg ?cond]
        case cond =>
          push_neg
          exact ⟨hrp.symm, fun hu => hrt hu⟩
      simp [runAdditions, hpi, ih st (fun p hp => hall p (List.mem_cons_of_mem _ hp))]

theorem mem_keysA_of_mem {α : Type} {l : List (String × α)} {p : String × α}
    (h : p ∈ l) : p.1 ∈ keysA l := List.mem_map_of_mem _ h

/-- Looking up any key other than the new hash in an `update_entry` result
reads through to the store with the old hash removed. -/
theorem lookupA_update_entry_other {st : Store} {k : String} (fi : SyncFileInfo)
    (e : Record) (h1 : k ≠ fi.hash) :
    lookupA k (LocalJson.update_entry st fi e) = lookupA k (removeA e.hash st) := by
  simp only [LocalJson.update_entry]
  exact lookupA_insertA_ne _ _ h1

/-- The additions loop preserves the store invariant (also on abort). -/
theorem runAdditions_storeInv (o : Oracle) (c : String) (ut : Bool) :
    ∀ (items : List (String × FileInfo)) (st : Store),
      StoreInv st → StoreInv (runAdditions o c ut st items).1 := by
  intro items
  induction items with
  | nil => intro st h; simpa [runAdditions] using h
  | cons q rest ih =>
      intro st h
      obtain ⟨k, f⟩ := q
      rcases hpi : processItem o c ut st f with ⟨st1, tr1, ok1⟩
      have h1 : StoreInv st1 := by
        have := processItem_storeInv o c ut st f h
        rwa [hpi] at this
      cases ok1
      · simp only [runAdditions, hpi]
        exact h1
      · rcases hra : runAdditions o c ut st1 rest with ⟨st2, tr2, ok2⟩
        have h2 := ih st1 h1
        rw [hra] at h2
        simp only [runAdditions, hpi, hra]
        exact h2

/-- Frame rule of the additions loop, with no distinct-name assumption on
the scan: an entry whose key is no processed hash and whose lower-cased
name differs from every processed file's is untouched. -/
theorem runAdditions_frame (o : Oracle) (c : String) (ut : Bool) :
    ∀ (items : List (String × FileInfo)) (st : Store) {h0 : String} {e0 : Record},
      StoreInv st → lookupA h0 st = some e0 →
      (∀ p ∈ items, h0 ≠ p.2.hash ∧
          pyLower e0.file_name ≠ pyLower p.2.file_name) →
      lookupA h0 (runAdditions o c ut st items).1 = some e0 := by
  intro items
  induction items with
  | nil => intro st h0 e0 _ hl _; simpa [runAdditions] using hl
  | cons q rest ih =>
      intro st h0 e0 hinv hl hsafe
      obtain ⟨k, f⟩ := q
      obtain ⟨hk, hn⟩ := hsafe (k, f) (List.mem_cons_self _ _)
      rcases hpi : processItem o c ut st f with ⟨st1, tr1, ok1⟩
      have hinv1 : StoreInv st1 := by
        have := processItem_storeInv o c ut st f hinv
        rwa [hpi] at this
      have hstep : lookupA h0 st1 = some e0 := by
        have := processItem_preserves_other o c ut st f hinv hl hk hn
        rwa [hpi] at this
      cases ok1
      · simp only [runAdditions, hpi]
        exact hstep
      · rcases hra : runAdditions o c ut st1 rest with ⟨st2, tr2, ok2⟩
        have hrest := ih st1 hinv1 hstep
          (fun p hp => hsafe p (List.mem_cons_of_mem _ hp))
        rw [hra] at hrest
        simp only [runAdditions, hpi, hra]
        exact hrest

/-- A key no item carries is never written: any record found there at the
end was there before the loop. -/
theorem processItem_key_stable (o : Oracle) (c : String) (ut : Bool)
    (st : Store) (f : FileInfo) {k : String} {r : Record}
    (hinv : StoreInv st) (hk : k ≠ f.hash)
    (h : lookupA k (processItem o c ut st f).1 = some r) :
    lookupA k st = some r := by
  rcases processItem_cases o c ut st f with
    ⟨e, _, _, _, _, hpe⟩ | ⟨e, url, tr, hle, hpe, _, _⟩ |
    ⟨m, url, tr, _, hfm, _, hpe, _, _⟩ | ⟨url, tr, _, _, hpe, _, _⟩ |
    ⟨err, tr, _, hpe, _, _⟩
  · rw [hpe] at h; exact h
  · rw [hpe] at h
    have he : e.hash = f.hash := (hinv.2 _ (lookupA_mem hle)).1
    rwa [lookupA_update_entry_ne _ _ hk (by rw [he]; exact hk)] at h
  · rw [hpe] at h
    obtain ⟨⟨km, hkm⟩, _⟩ := findByName_spec hfm
    have hmh : m.hash = km := (hinv.2 _ hkm).1
    by_cases hq : k = m.hash
    · exfalso
      rw [lookupA_update_entry_other (mkSync f (some url)) m hk] at h
      rw [hq, lookupA_removeA_self_of_nodup hinv.1] at h
      simp at h
    · rwa [lookupA_update_entry_ne _ _ hk hq] at h
  · rw [hpe] at h
    rwa [lookupA_create_entry_ne _ hk] at h
  · rw [hpe] at h; exact h

/-- Lifting `processItem_key_stable` through the loop. -/
theorem runAdditions_key_stable (o : Oracle) (c : String) (ut : Bool) :
    ∀ (items : List (String × FileInfo)) (st : Store) {k : String} {r : Record},
      StoreInv st → (∀ p ∈ items, k ≠ p.2.hash) →
      lookupA k (runAdditions o c ut st items).1 = some r →
      lookupA k st = some r := by
  intro items
  induction items with
  | nil => intro st k r _ _ h; simpa [runAdditions] using h
  | cons q rest ih =>
      intro st k r hinv hks h
      obtain ⟨k₀, f⟩ := q
      rcases hpi : processItem o c ut st f with ⟨st1, tr1, ok1⟩
      have hinv1 : StoreInv st1 := by
        have := processItem_storeInv o c ut st f hinv
        rwa [hpi] at this
      cases ok1
      · rw [show runAdditions o c ut st ((k₀, f) :: rest) = (st1, tr1, false) from by
          simp [runAdditions, hpi]] at h
        dsimp only at h
        exact processItem_key_stable o c ut st f hinv
          (hks (k₀, f) (List.mem_cons_self _ _)) (by rw [hpi]; exact h)
      · rcases hra : runAdditions o c ut st1 rest with ⟨st2, tr2, ok2⟩
        rw [show runAdditions o c ut st ((k₀, f) :: rest) = (st2, tr1 ++ tr2, ok2) from by
          simp [runAdditions, hpi, hra]] at h
        dsimp only at h
        have h1 : lookupA k st1 = some r := by
          refine ih st1 hinv1 (fun p hp => hks p (List.mem_cons_of_mem _ hp)) ?_
          rw [hra]
          exact h
        exact processItem_key_stable o c ut st f hinv
          (hks (k₀, f) (List.mem_cons_self _ _)) (by rw [hpi]; exact h1)

/-- Records surviving under processed keys keep lower-cased names from the
given name pool (no distinct-name assumption needed). -/
theorem runAdditions_keys_named (o : Oracle) (c : String) (ut : Bool)
    (names : List String) :
    ∀ (items : List (String × FileInfo)) (st : Store),
      StoreInv st →
      (∀ p ∈ items, p.2.hash = p.1 ∧ pyLower p.2.file_name ∈ names) →
      (keysA items).Nodup →
      (runAdditions o c ut st items).2.2 = true →
      ∀ k ∈ keysA items, ∀ r,
        lookupA k (runAdditions o c ut st items).1 = some r →
        pyLower r.file_name ∈ names := by
  intro items
  induction items with
  | nil => intro st _ _ _ _ k hk; simp [keysA] at hk
  | cons q rest ih =>
      intro st hinv hprops hnod hok k hk r hr
      obtain ⟨k₀, f⟩ := q
      obtain ⟨hkf, hfn⟩ := hprops (k₀, f) (List.mem_cons_self _ _)
      dsimp only at hkf hfn
      rw [keysA_cons, List.nodup_cons] at hnod
      rcases hpi : processItem o c ut st f with ⟨st1, tr1, ok1⟩
      have hinv1 : StoreInv st1 := by
        have := processItem_storeInv o c ut st f hinv
        rwa [hpi] at this
      cases ok1
      · rw [show runAdditions o c ut st ((k₀, f) :: rest) = (st1, tr1, false) from by
          simp [runAdditions, hpi]] at hok
        simp at hok
      · rcases hra : runAdditions o c ut st1 rest with ⟨st2, tr2, ok2⟩
        have hruneq : runAdditions o c ut st ((k₀, f) :: rest) = (st2, tr1 ++ tr2, ok2) := by
          simp [runAdditions, hpi, hra]
        rw [hruneq] at hok hr
        dsimp only at hok hr
        rw [keysA_cons] at hk
        rcases List.mem_cons.mp hk with hk1 | hk1
        · -- k = k₀: the record at k₀ in st1 is the established one
          subst hk1
          have h1 : lookupA k st1 = some r := by
            refine runAdditions_key_stable o c ut rest st1 hinv1 ?_ ?_
            · intro p hp
              rw [(hprops p (List.mem_cons_of_mem _ hp)).1]
              intro hq
              exact hnod.1 (by rw [hq]; exact mem_keysA_of_mem hp)
            · rw [hra]; exact hr
          obtain ⟨r0, hr0, hr0n, _, _⟩ :=
            processItem_establishes o c ut st f (by rw [hpi])
          rw [hpi] at hr0
          dsimp only at hr0
          rw [hkf] at hr0
          have : r = r0 := by
            rw [h1] at hr0
            exact Option.some.inj hr0
          rw [this, hr0n]
          exact hfn
        · -- k ∈ rest keys
          refine ih st1 hinv1 (fun p hp => hprops p (List.mem_cons_of_mem _ hp))
            hnod.2 (by rw [hra]; exact hok) k hk1 r ?_
          rw [hra]
          exact hr

/-- Items inherit pairwise-distinct lower-cased names from the scan. -/
theorem scannedByHash_lower_nodup (scanned : List FileInfo)
    (hnames : (scanned.map (fun f => pyLower f.file_name)).Nodup) :
    ((scannedByHash scanned).map (fun p => pyLower p.2.file_name)).Nodup := by
  obtain ⟨hmem, hnd⟩ := scannedByHash_spec scanned
  refine List.Nodup.map_on ?_ (List.Nodup.of_map Prod.fst hnd)
  intro p hp q hq heq
  obtain ⟨hph, hps⟩ := hmem p hp
  obtain ⟨hqh, hqs⟩ := hmem q hq
  have h2 : p.2 = q.2 := List.inj_on_of_nodup_map hnames hps hqs heq
  have h1 : p.1 = q.1 := by rw [← hph, ← hqh, h2]
  exact Prod.ext h1 h2

/-- Counting `delete_entry` calls in the deletion-pass trace: zero when no
unmatched snapshot entry carries the hash. -/
theorem flatMap_delete_count_zero (scanned : List FileInfo) :
    ∀ (l : List (String × Record)) (h : String),
      (∀ p ∈ l, foundLocally scanned p.2 = false → p.2.hash ≠ h) →
      (l.flatMap (delTraceOf scanned)).count (Effect.deleteE h) = 0 := by
  intro l
  induction l with
  | nil => intro h _; simp
  | cons p rest ih =>
      intro h hall
      rw [List.flatMap_cons, List.count_append]
      rw [ih h (fun q hq => hall q (List.mem_cons_of_mem _ hq))]
      unfold delTraceOf
      by_cases hf : foundLocally scanned p.2 = true
      · rw [if_pos hf]
        simp
      · rw [if_neg hf]
        have hne : p.2.hash ≠ h :=
          hall p (List.mem_cons_self _ _) (Bool.eq_false_iff.mpr hf)
        simp [List.count_cons, hne]

/-- Counting `delete_entry` calls in the deletion-pass trace: exactly one
for an unmatched entry, immediately followed by its best-effort destroy. -/
theorem flatMap_delete_count_one (scanned : List FileInfo) :
    ∀ (l : List (String × Record)) {h4 : String} {e4 : Record},
      (keysA l).Nodup → (∀ p ∈ l, p.2.hash = p.1) →
      (h4, e4) ∈ l → foundLocally scanned e4 = false →
      (l.flatMap (delTraceOf scanned)).count (Effect.deleteE h4) = 1 ∧
      ∃ t1 t2, l.flatMap (delTraceOf scanned) =
        t1 ++ Effect.deleteE h4 ::
          Effect.destroyE (extract_public_id (e4.image_url.getD "")) :: t2 := by
  intro l
  induction l with
  | nil => intro h4 e4 _ _ hm _; simp at hm
  | cons p rest ih =>
      intro h4 e4 hnd hsn hm hnf
      obtain ⟨k₀, q₀⟩ := p
      rw [keysA_cons, List.nodup_cons] at hnd
      rcases List.mem_cons.mp hm with hm1 | hm1
      · -- the head is the target pair
        have hke : h4 = k₀ := congrArg Prod.fst hm1
        have hqe : e4 = q₀ := congrArg Prod.snd hm1
        subst hke
        subst hqe
        have hph : e4.hash = h4 := hsn (h4, e4) (List.mem_cons_self _ _)
        have hz : (rest.flatMap (delTraceOf scanned)).count (Effect.deleteE h4) = 0 := by
          refine flatMap_delete_count_zero scanned rest h4 ?_
          intro q hq _
          rw [hsn q (List.mem_cons_of_mem _ hq)]
          intro hq1
          exact hnd.1 (by rw [← hq1]; exact mem_keysA_of_mem hq)
        have hdel : delTraceOf scanned (h4, e4) =
            [Effect.deleteE e4.hash,
             Effect.destroyE (extract_public_id (e4.image_url.getD ""))] := by
          unfold delTraceOf
          dsimp only
          rw [if_neg (by simp [hnf])]
        rw [List.flatMap_cons, hdel]
        refine ⟨?_, [], rest.flatMap (delTraceOf scanned), ?_⟩
        · rw [List.count_append, hz, hph]
          simp
        · rw [hph]
          simp
      · -- target in the tail; the head's key differs
        have hkne : e4.hash ≠ k₀ := by
          rw [hsn (h4, e4) (List.mem_cons_of_mem _ hm1)]
          intro hq
          exact hnd.1 (by rw [← hq]; exact mem_keysA_of_mem hm1)
        have hph : h4 = e4.hash := (hsn (h4, e4) (List.mem_cons_of_mem _ hm1)).symm
        obtain ⟨hc, t1, t2, hsplit⟩ := ih hnd.2
          (fun q hq => hsn q (List.mem_cons_of_mem _ hq)) hm1 hnf
        rw [List.flatMap_cons]
        constructor
        · rw [List.count_append, hc]
          by_cases hf : foundLocally scanned q₀ = true
          · rw [show delTraceOf scanned (k₀, q₀) = [] from by
              unfold delTraceOf; dsimp only; rw [if_pos hf]]
            simp
          · rw [show delTraceOf scanned (k₀, q₀) =
                [Effect.deleteE q₀.hash,
                 Effect.destroyE (extract_public_id (q₀.image_url.getD ""))] from by
              unfold delTraceOf; dsimp only; rw [if_neg hf]]
            have hq₀ : q₀.hash = k₀ := hsn (k₀, q₀) (List.mem_cons_self _ _)
            have hne2 : ¬ (Effect.deleteE q₀.hash = Effect.deleteE h4) := by
              intro hq
              have := (Effect.deleteE.injEq _ _).mp hq
              rw [hq₀] at this
              rw [hph] at this
              exact hkne this.symm
            simp [List.count_cons, hne2]
        · exact ⟨delTraceOf scanned (k₀, q₀) ++ t1, t2, by rw [hsplit, List.append_assoc]⟩

/-- Case split on a whole run: either the additions loop completed and the
deletion pass ran on its result, or the run aborted inside the loop. -/
theorem update_assets_cases (o : Oracle) (cat : String) (ut : Bool)
    (scanned : List FileInfo) (st0 : Store) :
    (∃ st1 tr1, runAdditions o cat ut st0 (scannedByHash scanned) = (st1, tr1, true) ∧
        update_assets o cat ut scanned st0 =
          ⟨(runDeletions o scanned st1 st1).1,
           tr1 ++ (runDeletions o scanned st1 st1).2, true⟩) ∨
    (∃ st1 tr1, runAdditions o cat ut st0 (scannedByHash scanned) = (st1, tr1, false) ∧
        update_assets o cat ut scanned st0 = ⟨st1, tr1, false⟩) := by
  unfold update_assets
  dsimp only
  rcases h : runAdditions o cat ut st0 (scannedByHash scanned) with ⟨st1, tr1, ok⟩
  cases ok
  · exact Or.inr ⟨st1, tr1, rfl, rfl⟩
  · refine Or.inl ⟨st1, tr1, rfl, ?_⟩
    rcases hrd : runDeletions o scanned st1 st1 with ⟨st2, tr2⟩
    dsimp only
    rw [hrd]

/-! ## The destroy result never influences the run

The engine wraps every `cloudinary.uploader.destroy` call in `try/except`
and uses its response only for logging, so two oracles differing only in
`destroy` yield identical runs. -/

theorem processItem_destroy_blind (u : FileInfo → Except String UploadResp)
    (re : String → String → Except String Unit) (rs : String → Except String String)
    (d d' : String → Except String String) (di : String → String → Except String Unit)
    (c : String) (ut : Bool) (st : Store) (f : FileInfo) :
    processItem ⟨u, re, rs, d, di⟩ c ut st f = processItem ⟨u, re, rs, d', di⟩ c ut st f := rfl

theorem runAdditions_destroy_blind (u : FileInfo → Except String UploadResp)
    (re : String → String → Except String Unit) (rs : String → Except String String)
    (d d' : String → Except String String) (di : String → String → Except String Unit)
    (c : String) (ut : Bool) :
    ∀ (items : List (String × FileInfo)) (st : Store),
      runAdditions ⟨u, re, rs, d, di⟩ c ut st items
        = runAdditions ⟨u, re, rs, d', di⟩ c ut st items := by
  intro items
  induction items with
  | nil => intro st; rfl
  | cons q rest ih =>
      intro st
      obtain ⟨k, f⟩ := q
      rcases hpi : processItem ⟨u, re, rs, d, di⟩ c ut st f with ⟨st1, tr1, ok1⟩
      have hpi' : processItem ⟨u, re, rs, d', di⟩ c ut st f = (st1, tr1, ok1) := by
        rw [← processItem_destroy_blind u re rs d d' di]
        exact hpi
      cases ok1
      · simp [runAdditions, hpi, hpi']
      · simp [runAdditions, hpi, hpi', ih st1]

theorem runDeletions_destroy_blind (u : FileInfo → Except String UploadResp)
    (re : String → String → Except String Unit) (rs : String → Except String String)
    (d d' : String → Except String String) (di : String → String → Except String Unit)
    (scanned : List FileInfo) :
    ∀ (snapshot : List (String × Record)) (st : Store),
      runDeletions ⟨u, re, rs, d, di⟩ scanned st snapshot
        = runDeletions ⟨u, re, rs, d', di⟩ scanned st snapshot := by
  intro snapshot
  induction snapshot with
  | nil => intro st; rfl
  | cons p rest ih =>
      intro st
      obtain ⟨k, e⟩ := p
      by_cases hf : foundLocally scanned e = true
      · simp only [runDeletions, if_pos hf]
        exact ih st
      · simp only [runDeletions, if_neg hf]
        rw [ih (LocalJson.delete_entry st e)]

theorem update_assets_destroy_blind (o o' : Oracle) (cat : String) (ut : Bool)
    (scanned : List FileInfo) (st0 : Store)
    (hu : o'.upload = o.upload) (hre : o'.rename = o.rename)
    (hrs : o'.resource = o.resource) (hdi : o'.display = o.display) :
    update_assets o' cat ut scanned st0 = update_assets o cat ut scanned st0 := by
  obtain ⟨u, re, rs, d, di⟩ := o
  obtain ⟨u', re', rs', d', di'⟩ := o'
  dsimp only at hu hre hrs hdi
  subst hu
  subst hre
  subst hrs
  subst hdi
  unfold update_assets
  dsimp only
  rw [runAdditions_destroy_blind u' re' rs' d' d di']
  rcases h : runAdditions ⟨u', re', rs', d, di'⟩ cat ut st0 (scannedByHash scanned)
      with ⟨st1, tr1, ok⟩
  cases ok
  · rfl
  · dsimp only
    rw [runDeletions_destroy_blind u' re' rs' d' d di']

/-- The deletion pass never calls `create_entry`. -/
theorem createdHashes_flatMap_del (scanned : List FileInfo) :
    ∀ (l : List (String × Record)),
      createdHashes (l.flatMap (delTraceOf scanned)) = [] := by
  intro l
  induction l with
  | nil => simp [createdHashes]
  | cons p rest ih =>
      rw [List.flatMap_cons, createdHashes_append, ih]
      unfold delTraceOf
      by_cases hf : foundLocally scanned p.2 = true
      · rw [if_pos hf]; simp [createdHashes]
      · rw [if_neg hf]; simp [createdHashes]

/-- One item completes whenever its uploads cannot fail. -/
theorem processItem_completes (o : Oracle) (c : String) (ut : Bool)
    (st : Store) (f : FileInfo)
    (hup : ∃ resp, o.upload f = Except.ok resp) :
    (processItem o c ut st f).2.2 = true := by
  rcases processItem_cases o c ut st f with
    ⟨e, _, _, _, _, hpe⟩ | ⟨e, url, tr, _, hpe, _, _⟩ |
    ⟨m, url, tr, _, _, _, hpe, _, _⟩ | ⟨url, tr, _, _, hpe, _, _⟩ |
    ⟨err, tr, herr, hpe, _, _⟩
  · rw [hpe]
  · rw [hpe]
  · rw [hpe]
  · rw [hpe]
  · obtain ⟨resp, hresp⟩ := hup
    rw [herr] at hresp
    simp at hresp

/-- The additions loop completes whenever uploads cannot fail. -/
theorem runAdditions_completes (o : Oracle) (c : String) (ut : Bool)
    (hup : ∀ f, ∃ resp, o.upload f = Except.ok resp) :
    ∀ (items : List (String × FileInfo)) (st : Store),
      (runAdditions o c ut st items).2.2 = true := by
  intro items
  induction items with
  | nil => intro st; simp [runAdditions]
  | cons q rest ih =>
      intro st
      obtain ⟨k, f⟩ := q
      rcases hpi : processItem o c ut st f with ⟨st1, tr1, ok1⟩
      have h1 : ok1 = true := by
        have := processItem_completes o c ut st f (hup f)
        rwa [hpi] at this
      subst h1
      rcases hra : runAdditions o c ut st1 rest with ⟨st2, tr2, ok2⟩
      have h2 : ok2 = true := by
        have := ih st1
        rwa [hra] at this
      subst h2
      simp [runAdditions, hpi, hra]

/-! ## Concrete oracles and inputs for counterexamples and witnesses -/

/-- A Cloudinary oracle whose calls all succeed. -/
def okOracle : Oracle :=
  { upload := fun _ =>
      Except.ok ⟨"https://res.cloudinary.com/demo/image/upload/v1/banner/img.jpg",
                 "banner/img"⟩
    rename := fun _ _ => Except.ok ()
    resource := fun pid =>
      Except.ok ("https://res.cloudinary.com/demo/image/upload/v2/" ++ pid ++ ".jpg")
    destroy := fun _ => Except.ok "ok"
    display := fun _ _ => Except.ok () }

/-- An oracle whose upload raises for the file with hash `H1` only. -/
def failH1Oracle : Oracle :=
  { okOracle with
      upload := fun f =>
        if f.hash = "H1" then Except.error "upload failed" else okOracle.upload f }

/-! ## Claim C5 — at most one `create_entry` per hash -/

/-- C5: one reconciliation run never creates two backend entries with the
same content hash: the hashes passed to `create_entry` are pairwise
distinct; duplicate local files with identical bytes collapse into the
single hash-keyed item map before processing. -/
theorem create_entry_once_per_hash (o : Oracle) (cat : String) (ut : Bool)
    (scanned : List FileInfo) (st0 : Store) :
    (createdHashes (update_assets o cat ut scanned st0).trace).Nodup ∧
    (keysA (scannedByHash scanned)).Nodup ∧
    (∀ h, h ∈ keysA (scannedByHash scanned) ↔ h ∈ scanned.map FileInfo.hash) := by
  refine ⟨?_, (scannedByHash_spec scanned).2, fun h => mem_keysA_scannedByHash scanned h⟩
  have hmapeq : (scannedByHash scanned).map (fun p => p.2.hash)
      = keysA (scannedByHash scanned) := by
    refine List.map_congr_left ?_
    intro p hp
    exact ((scannedByHash_spec scanned).1 p hp).1
  rcases update_assets_cases o cat ut scanned st0 with
    ⟨st1, tr1, hra, hrw⟩ | ⟨st1, tr1, hra, hrw⟩
  · rw [hrw]
    dsimp only
    rw [createdHashes_append, runDeletions_trace, createdHashes_flatMap_del,
      List.append_nil]
    have hsub := runAdditions_created_sublist o cat ut (scannedByHash scanned) st0
    rw [hra] at hsub
    dsimp only at hsub
    rw [hmapeq] at hsub
    exact hsub.nodup (scannedByHash_spec scanned).2
  · rw [hrw]
    dsimp only
    have hsub := runAdditions_created_sublist o cat ut (scannedByHash scanned) st0
    rw [hra] at hsub
    dsimp only at hsub
    rw [hmapeq] at hsub
    exact hsub.nodup (scannedByHash_spec scanned).2

/-! ## Claim C3 — failure isolation -/

/-- C3 (counterexample): an upload exception is not caught at the item
boundary: with two brand-new files and an oracle whose upload fails on the
first, the run aborts after the first upload attempt — the second file is
never uploaded or created, contradicting the claim that the run continues
to the next item. -/
theorem upload_failure_aborts_run_counterexample :
    (update_assets failH1Oracle "banner" true
        [⟨"a.jpg", "$AS/a.jpg", "/as/a.jpg", "H1", ["banner"]⟩,
         ⟨"b.jpg", "$AS/b.jpg", "/as/b.jpg", "H2", ["banner"]⟩] []).completed
      = false ∧
    (update_assets failH1Oracle "banner" true
        [⟨"a.jpg", "$AS/a.jpg", "/as/a.jpg", "H1", ["banner"]⟩,
         ⟨"b.jpg", "$AS/b.jpg", "/as/b.jpg", "H2", ["banner"]⟩] []).trace
      = [Effect.uploadE ⟨"a.jpg", "$AS/a.jpg", "/as/a.jpg", "H1", ["banner"]⟩] := by
  exact ⟨by decide, by decide⟩

/-- C3 (amended): only content-store destroy results/exceptions, rename and
resource-fetch exceptions (which fall back to a re-upload) and display-name
failures are swallowed; when no upload raises, the run always completes,
whatever the other oracles answer.  An upload exception — or, equally
uncaught, a backend write exception — aborts the whole batch. -/
theorem run_completes_when_uploads_succeed (o : Oracle) (cat : String)
    (ut : Bool) (scanned : List FileInfo) (st0 : Store)
    (hup : ∀ f, ∃ resp, o.upload f = Except.ok resp) :
    (update_assets o cat ut scanned st0).completed = true := by
  rcases update_assets_cases o cat ut scanned st0 with
    ⟨st1, tr1, hra, hrw⟩ | ⟨st1, tr1, hra, hrw⟩
  · rw [hrw]
  · exfalso
    have := runAdditions_completes o cat ut hup (scannedByHash scanned) st0
    rw [hra] at this
    simp at this

/-- Witness for C3 (amended) on a concrete run. -/
theorem run_completes_when_uploads_succeed_witness :
    (update_assets okOracle "banner" true
        [⟨"a.jpg", "$AS/a.jpg", "/as/a.jpg", "H1", ["banner"]⟩] []).completed
      = true :=
  run_completes_when_uploads_succeed okOracle "banner" true
    [⟨"a.jpg", "$AS/a.jpg", "/as/a.jpg", "H1", ["banner"]⟩] []
    (fun _ => ⟨⟨"https://res.cloudinary.com/demo/image/upload/v1/banner/img.jpg",
               "banner/img"⟩, rfl⟩)

/-! ## Claim C4 — tag comparison -/

/-- C4 (counterexample): the tag-changed test is order-sensitive list
inequality, not set equality: an entry whose stored tags are a permutation
of the scanned tags triggers a full re-upload and `update_entry`. -/
theorem tag_order_triggers_update_counterexample :
    (List.Perm (["banner", "sub"] : List String) ["sub", "banner"]) ∧
    (update_assets okOracle "banner" true
        [⟨"a.jpg", "$AS/a.jpg", "/as/a.jpg", "H1", ["sub", "banner"]⟩]
        [("H1", ⟨"H1", "a.jpg", "$AS/a.jpg",
            some "https://res.cloudinary.com/demo/image/upload/v0/banner/a.jpg",
            ["banner", "sub"], "H1", []⟩)]).trace
      = [Effect.uploadE ⟨"a.jpg", "$AS/a.jpg", "/as/a.jpg", "H1", ["sub", "banner"]⟩,
         Effect.displayE "banner/img" "A",
         Effect.updateE "H1" "H1"] := by
  exact ⟨by decide, by decide⟩

/-- C4 (amended): for a hash-matched file with unchanged name and path, the
engine takes no action exactly when the stored and scanned tag lists are
equal as ordered lists; any difference — including a mere permutation —
triggers the update path. -/
theorem tag_comparison_is_ordered (o : Oracle) (cat : String) (st : Store)
    (f : FileInfo) (e : Record)
    (hl : lookupA f.hash st = some e)
    (hn : pyLower e.file_name = pyLower f.file_name)
    (hp : e.raw_path = f.raw_path) :
    ((processItem o cat true st f).2.1 = [] ↔ e.tags = f.tags) := by
  unfold processItem
  rw [hl]
  dsimp only
  rw [if_neg (by simp [hn])]
  by_cases ht : e.tags = f.tags
  · rw [if_neg (by push_neg; exact ⟨hp.symm, fun _ => ht⟩)]
    simp [ht]
  · rw [if_pos (Or.inr ⟨rfl, ht⟩)]
    rcases hu : o.upload f with err | resp
    · simp [ht]
    · simp [ht]

/-- Witness for C4 (amended) at equal tag lists. -/
theorem tag_comparison_is_ordered_witness :
    (processItem okOracle "banner"
        true
        [("H1", ⟨"H1", "a.jpg", "$AS/a.jpg", some "u", ["banner"], "H1", []⟩)]
        ⟨"a.jpg", "$AS/a.jpg", "/as/a.jpg", "H1", ["banner"]⟩).2.1 = [] :=
  (tag_comparison_is_ordered okOracle "banner"
      [("H1", ⟨"H1", "a.jpg", "$AS/a.jpg", some "u", ["banner"], "H1", []⟩)]
      ⟨"a.jpg", "$AS/a.jpg", "/as/a.jpg", "H1", ["banner"]⟩
      ⟨"H1", "a.jpg", "$AS/a.jpg", some "u", ["banner"], "H1", []⟩
      (by decide) (by decide) (by decide)).mpr (by decide)

/-! ## Claim C1 — deletion pass -/

/-- C1 (counterexample): a remote entry whose content hash (`H1`) is absent
from the local scan receives no `delete_entry` call when its stored file
name matches a scanned file's name: the deletion pass tests names, not
hashes, so the claim fails as stated. -/
theorem deletion_by_hash_counterexample :
    ("H1" ∉ ([⟨"a.jpg", "$AS/sub/a.jpg", "/as/sub/a.jpg", "H2", ["banner"]⟩] :
        List FileInfo).map FileInfo.hash) ∧
    (update_assets okOracle "banner" true
        [⟨"a.jpg", "$AS/sub/a.jpg", "/as/sub/a.jpg", "H2", ["banner"]⟩]
        [("H1", ⟨"H1", "a.jpg", "$AS/a.jpg",
            some "https://res.cloudinary.com/demo/image/upload/v0/banner/a.jpg",
            ["banner"], "H1", []⟩)]).completed = true ∧
    (update_assets okOracle "banner" true
        [⟨"a.jpg", "$AS/sub/a.jpg", "/as/sub/a.jpg", "H2", ["banner"]⟩]
        [("H1", ⟨"H1", "a.jpg", "$AS/a.jpg",
            some "https://res.cloudinary.com/demo/image/upload/v0/banner/a.jpg",
            ["banner"], "H1", []⟩)]).trace.count (Effect.deleteE "H1") = 0 :=
  ⟨by decide, by decide, by decide⟩

/-- C1 (amended): in a completed run over a well-keyed store, a remote
entry whose hash is absent from the scan **and** whose lower-cased file
name matches no scanned file's name gets exactly one `delete_entry` call,
immediately followed by one best-effort destroy of the public id derived
from its stored URL; entries whose hash is present locally get no delete;
and the destroy oracle's answers never change the run's outcome. -/
theorem deletion_requires_name_mismatch (o : Oracle) (cat : String) (ut : Bool)
    (scanned : List FileInfo) (st0 : Store) (h4 : String) (e4 : Record)
    (hinv : StoreInv st0)
    (hl4 : lookupA h4 st0 = some e4)
    (hhash : h4 ∉ scanned.map FileInfo.hash)
    (hname : pyLower e4.file_name ∉ scanned.map (fun f => pyLower f.file_name))
    (hcomp : (update_assets o cat ut scanned st0).completed = true) :
    (update_assets o cat ut scanned st0).trace.count (Effect.deleteE h4) = 1 ∧
    (∃ t1 t2, (update_assets o cat ut scanned st0).trace =
        t1 ++ Effect.deleteE h4 ::
          Effect.destroyE (extract_public_id (e4.image_url.getD "")) :: t2) ∧
    (∀ h', h' ∈ scanned.map FileInfo.hash →
        (update_assets o cat ut scanned st0).trace.count (Effect.deleteE h') = 0) ∧
    (∀ o' : Oracle, o'.upload = o.upload → o'.rename = o.rename →
        o'.resource = o.resource → o'.display = o.display →
        update_assets o' cat ut scanned st0 = update_assets o cat ut scanned st0) := by
  rcases update_assets_cases o cat ut scanned st0 with
    ⟨st1, tr1, hra, hrw⟩ | ⟨st1, tr1, hra, hrw⟩
  case inr => rw [hrw] at hcomp; simp at hcomp
  obtain ⟨hitems, hndk⟩ := scannedByHash_spec scanned
  have hinv1 : StoreInv st1 := by
    have := runAdditions_storeInv o cat ut (scannedByHash scanned) st0 hinv
    rwa [hra] at this
  have hl1 : lookupA h4 st1 = some e4 := by
    have hsafe : ∀ p ∈ scannedByHash scanned, h4 ≠ p.2.hash ∧
        pyLower e4.file_name ≠ pyLower p.2.file_name := by
      intro p hp
      obtain ⟨hph, hps⟩ := hitems p hp
      refine ⟨?_, ?_⟩
      · intro hq; exact hhash (by rw [hq]; exact List.mem_map_of_mem _ hps)
      · intro hq; exact hname (by rw [hq]; exact List.mem_map_of_mem _ hps)
    have := runAdditions_frame o cat ut (scannedByHash scanned) st0 hinv hl4 hsafe
    rwa [hra] at this
  have hnf4 : foundLocally scanned e4 = false := by
    rw [Bool.eq_false_iff]
    intro hany
    rw [foundLocally, List.any_eq_true] at hany
    obtain ⟨f, hf, hbeq⟩ := hany
    rw [beq_iff_eq] at hbeq
    exact hname (by rw [hbeq]; exact List.mem_map_of_mem _ hf)
  have hnd1 : noDeletes tr1 := by
    have := runAdditions_noDeletes o cat ut (scannedByHash scanned) st0
    rwa [hra] at this
  have hcount1 : ∀ h, tr1.count (Effect.deleteE h) = 0 := fun h =>
    List.count_eq_zero.mpr (hnd1 h)
  have hinvK : ∀ p ∈ st1, p.2.hash = p.1 := fun p hp => (hinv1.2 p hp).1
  have htr2 := runDeletions_trace o scanned st1 st1
  obtain ⟨hc1, t1x, t2x, hsplit⟩ := flatMap_delete_count_one scanned st1 hinv1.1
    hinvK (lookupA_mem hl1) hnf4
  refine ⟨?_, ?_, ?_, fun o' hx1 hx2 hx3 hx4 =>
    update_assets_destroy_blind o o' cat ut scanned st0 hx1 hx2 hx3 hx4⟩
  · rw [hrw]
    dsimp only
    rw [List.count_append, hcount1, htr2, hc1]
  · rw [hrw]
    dsimp only
    exact ⟨tr1 ++ t1x, t2x, by rw [htr2, hsplit, List.append_assoc]⟩
  · intro h' hh'
    have hz : ∀ p ∈ st1, foundLocally scanned p.2 = false → p.2.hash ≠ h' := by
      intro p hp hpf
      have hpk : p.2.hash = p.1 := hinvK p hp
      rw [hpk]
      intro hq
      have hmem1 : (h', p.2) ∈ st1 := by
        rw [← hq, Prod.mk.eta]
        exact hp
      have hl' : lookupA h' st1 = some p.2 := lookupA_eq_of_mem_nodup hinv1.1 hmem1
      have hprops : ∀ q ∈ scannedByHash scanned, q.2.hash = q.1 ∧
          pyLower q.2.file_name ∈ scanned.map (fun g => pyLower g.file_name) := by
        intro q hqm
        obtain ⟨hqh, hqs⟩ := hitems q hqm
        exact ⟨hqh, List.mem_map_of_mem _ hqs⟩
      have hok : (runAdditions o cat ut st0 (scannedByHash scanned)).2.2 = true := by
        rw [hra]
      have hnamed := runAdditions_keys_named o cat ut
        (scanned.map (fun g => pyLower g.file_name)) (scannedByHash scanned) st0
        hinv hprops hndk hok h'
        ((mem_keysA_scannedByHash scanned h').mpr hh') p.2
        (by rw [hra]; exact hl')
      obtain ⟨g, hg, hgeq⟩ := List.mem_map.mp hnamed
      have hfound : foundLocally scanned p.2 = true := by
        rw [foundLocally, List.any_eq_true]
        exact ⟨g, hg, by rw [← hgeq]; simp⟩
      rw [hpf] at hfound
      simp at hfound
    rw [hrw]
    dsimp only
    rw [List.count_append, hcount1, htr2,
      flatMap_delete_count_zero scanned st1 h' hz]

/-- Witness for C1 (amended): pure removal of a stale entry. -/
theorem deletion_requires_name_mismatch_witness :
    (update_assets okOracle "banner" true
        [⟨"a.jpg", "$AS/a.jpg", "/as/a.jpg", "H1", ["banner"]⟩]
        [("H4", ⟨"H4", "old.png", "$AS/old.png",
            some "https://res.cloudinary.com/demo/image/upload/v0/banner/old.png",
            ["banner"], "H4", []⟩)]).trace.count (Effect.deleteE "H4") = 1 :=
  (deletion_requires_name_mismatch okOracle "banner" true
      [⟨"a.jpg", "$AS/a.jpg", "/as/a.jpg", "H1", ["banner"]⟩]
      [("H4", ⟨"H4", "old.png", "$AS/old.png",
          some "https://res.cloudinary.com/demo/image/upload/v0/banner/old.png",
          ["banner"], "H4", []⟩)]
      "H4"
      ⟨"H4", "old.png", "$AS/old.png",
          some "https://res.cloudinary.com/demo/image/upload/v0/banner/old.png",
          ["banner"], "H4", []⟩
      (by decide) (by decide) (by decide) (by decide) (by decide)).1

/-! ## Claim C2 — idempotence -/

/-- C2 (counterexample): two scanned files that share the name `a.jpg` with
different hashes make the engine's content-changed matching ping-pong the
record between hash keys, so the second run — with no local change — still
performs writes: reconciliation is not idempotent as claimed. -/
theorem second_run_writes_counterexample :
    (update_assets okOracle "banner" true
        [⟨"a.jpg", "$AS/a.jpg", "/as/a.jpg", "H1", ["banner"]⟩,
         ⟨"a.jpg", "$AS/sub/a.jpg", "/as/sub/a.jpg", "H2", ["banner", "sub"]⟩]
        [("H1", ⟨"H1", "a.jpg", "$AS/a.jpg",
            some "https://res.cloudinary.com/demo/image/upload/v0/banner/a.jpg",
            ["banner"], "H1", []⟩)]).completed = true ∧
    (update_assets okOracle "banner" true
        [⟨"a.jpg", "$AS/a.jpg", "/as/a.jpg", "H1", ["banner"]⟩,
         ⟨"a.jpg", "$AS/sub/a.jpg", "/as/sub/a.jpg", "H2", ["banner", "sub"]⟩]
        (update_assets okOracle "banner" true
          [⟨"a.jpg", "$AS/a.jpg", "/as/a.jpg", "H1", ["banner"]⟩,
           ⟨"a.jpg", "$AS/sub/a.jpg", "/as/sub/a.jpg", "H2", ["banner", "sub"]⟩]
          [("H1", ⟨"H1", "a.jpg", "$AS/a.jpg",
              some "https://res.cloudinary.com/demo/image/upload/v0/banner/a.jpg",
              ["banner"], "H1", []⟩)]).store).trace ≠ [] :=
  ⟨by decide, by decide⟩

/-- C2 (amended): when no two scanned files share the same lower-cased file
name, re-running reconciliation immediately after a completed run over a
well-keyed store, with the same scan, issues zero remote calls: the second
run's trace is empty, its store unchanged, and it completes — for any
oracle, since no call is made. -/
theorem second_run_noop (o1 o2 : Oracle) (cat : String) (ut : Bool)
    (scanned : List FileInfo) (st0 : Store)
    (hinv : StoreInv st0)
    (hnames : (scanned.map (fun f => pyLower f.file_name)).Nodup)
    (hcomp : (update_assets o1 cat ut scanned st0).completed = true) :
    (update_assets o2 cat ut scanned
        (update_assets o1 cat ut scanned st0).store).trace = [] ∧
    (update_assets o2 cat ut scanned
        (update_assets o1 cat ut scanned st0).store).store
      = (update_assets o1 cat ut scanned st0).store ∧
    (update_assets o2 cat ut scanned
        (update_assets o1 cat ut scanned st0).store).completed = true := by
  rcases update_assets_cases o1 cat ut scanned st0 with
    ⟨st1, tr1, hra, hrw⟩ | ⟨st1, tr1, hra, hrw⟩
  case inr => rw [hrw] at hcomp; simp at hcomp
  obtain ⟨hitems, hndk⟩ := scannedByHash_spec scanned
  have hlow := scannedByHash_lower_nodup scanned hnames
  have hok : (runAdditions o1 cat ut st0 (scannedByHash scanned)).2.2 = true := by
    rw [hra]
  have hinvres := runAdditions_invariant o1 cat ut (scannedByHash scanned) st0 hinv
    (fun p hp => (hitems p hp).1) hndk hlow hok
  rw [hra] at hinvres
  dsimp only at hinvres
  obtain ⟨hinv1, _, hest⟩ := hinvres
  have hinv2 : StoreInv (runDeletions o1 scanned st1 st1).1 :=
    runDeletions_storeInv o1 scanned st1 st1 hinv1
  have hest2 : ∀ p ∈ scannedByHash scanned, p.2.hash = p.1 ∧
      ∃ r, lookupA p.1 (runDeletions o1 scanned st1 st1).1 = some r ∧
        pyLower r.file_name = pyLower p.2.file_name ∧
        r.raw_path = p.2.raw_path ∧ (ut = true → r.tags = p.2.tags) := by
    intro p hp
    obtain ⟨r, hr, hrn, hrp, hrt⟩ := hest p hp
    obtain ⟨hph, hps⟩ := hitems p hp
    have hfr : foundLocally scanned r = true := by
      rw [foundLocally, List.any_eq_true]
      exact ⟨p.2, hps, by rw [hrn]; simp⟩
    refine ⟨hph, r, ?_, hrn, hrp, hrt⟩
    rw [runDeletions_lookup_of o1 scanned st1 st1 p.1 ?safe]
    · exact hr
    case safe =>
      intro q hq hqf
      have hqk : q.2.hash = q.1 := (hinv1.2 q hq).1
      rw [hqk]
      intro hq1
      have hmemq : (p.1, q.2) ∈ st1 := by
        rw [← hq1, Prod.mk.eta]
        exact hq
      have : q.2 = r :=
        Option.some.inj ((lookupA_eq_of_mem_nodup hinv1.1 hmemq).symm.trans hr)
      rw [this] at hqf
      rw [hqf] at hfr
      simp at hfr
  have hall2 : ∀ p ∈ (runDeletions o1 scanned st1 st1).1,
      foundLocally scanned p.2 = true :=
    runDeletions_found_aux o1 scanned st1 st1 hinv1.1
      (fun p hp => (hinv1.2 p hp).1) (fun p hp => Or.inl hp)
  have hrun2 : update_assets o2 cat ut scanned (runDeletions o1 scanned st1 st1).1
      = ⟨(runDeletions o1 scanned st1 st1).1, [], true⟩ := by
    unfold update_assets
    dsimp only
    rw [runAdditions_noop o2 cat ut (scannedByHash scanned)
      (runDeletions o1 scanned st1 st1).1 hest2]
    dsimp only
    rw [runDeletions_noop o2 scanned (runDeletions o1 scanned st1 st1).1
      (runDeletions o1 scanned st1 st1).1 hall2]
    rfl
  rw [hrw]
  dsimp only
  rw [hrun2]
  exact ⟨rfl, rfl, rfl⟩

/-- Witness for C2 (amended) on a concrete two-file scan. -/
theorem second_run_noop_witness :
    (update_assets okOracle "banner" true
        [⟨"a.jpg", "$AS/a.jpg", "/as/a.jpg", "H1", ["banner"]⟩,
         ⟨"b.jpg", "$AS/b.jpg", "/as/b.jpg", "H2", ["banner"]⟩]
        (update_assets okOracle "banner" true
          [⟨"a.jpg", "$AS/a.jpg", "/as/a.jpg", "H1", ["banner"]⟩,
           ⟨"b.jpg", "$AS/b.jpg", "/as/b.jpg", "H2", ["banner"]⟩]
          [("H4", ⟨"H4", "old.png", "$AS/old.png",
              some "https://res.cloudinary.com/demo/image/upload/v0/banner/old.png",
              ["banner"], "H4", []⟩)]).store).trace = [] :=
  (second_run_noop okOracle okOracle "banner" true
      [⟨"a.jpg", "$AS/a.jpg", "/as/a.jpg", "H1", ["banner"]⟩,
       ⟨"b.jpg", "$AS/b.jpg", "/as/b.jpg", "H2", ["banner"]⟩]
      [("H4", ⟨"H4", "old.png", "$AS/old.png",
          some "https://res.cloudinary.com/demo/image/upload/v0/banner/old.png",
          ["banner"], "H4", []⟩)]
      (by decide) (by decide) (by decide)).1

/-! ## Support lemmas for `_extract_public_id` -/

theorem matchGroup_ne_nil {cs g : List Char} (h : matchGroup cs = some g) :
    g ≠ [] := by
  unfold matchGroup at h
  split at h
  · exact absurd h (by simp)
  · cases h
    simp
  · exact absurd h (by simp)

theorem matchWithSegment_ne_nil {cs g : List Char}
    (h : matchWithSegment cs = some g) : g ≠ [] := by
  unfold matchWithSegment at h
  split at h
  · split at h
    · exact matchGroup_ne_nil h
    · exact absurd h (by simp)
  · exact absurd h (by simp)

theorem matchAfterUpload_ne_nil {cs g : List Char}
    (h : matchAfterUpload cs = some g) : g ≠ [] := by
  unfold matchAfterUpload at h
  split at h
  · rename_i hsome
    cases h
    exact matchWithSegment_ne_nil hsome
  · split at h
    · exact matchGroup_ne_nil h
    · exact absurd h (by simp)

theorem searchUpload_ne_nil : ∀ {cs g : List Char},
    searchUpload cs = some g → g ≠ [] := by
  intro cs
  induction cs with
  | nil => intro g h; simp [searchUpload] at h
  | cons c rest ih =>
      intro g h
      unfold searchUpload at h
      split at h
      · split at h
        · cases h
          rename_i hma
          exact matchAfterUpload_ne_nil hma
        · exact ih h
      · exact ih h

/-! ## Claim C7 — tag generation -/

/-- C7: tag generation is a pure function of (relative path, category): for
`Programming/Python/file.png` under category `banner` it returns exactly
`["banner", "programming", "python"]` (category first, then directory
segments root-to-leaf, lower-cased, underscored, de-duplicated), and
repeated calls on the same input return the same list. -/
theorem generate_tags_banner_programming_python :
    generate_tags ["Programming", "Python", "file.png"] "banner"
        = ["banner", "programming", "python"] ∧
    ∀ (relParts : List String) (root_category : String),
      generate_tags relParts root_category = generate_tags relParts root_category :=
  ⟨by decide, fun _ _ => rfl⟩

/-! ## Claim C8 — public-id derivation -/

/-- C8: `_extract_public_id` is total (a Lean function on all of `String`),
returns `""` exactly when the URL contains no match of the upload pattern,
and is deterministic under repeated application; on the documented example
URL it strips the transformation and version segments. -/
theorem extract_public_id_total_and_stable :
    (∀ url : String, extract_public_id url = "" ↔ searchUpload url.data = none) ∧
    (∀ url : String, extract_public_id url = extract_public_id url) ∧
    extract_public_id
        "https://res.cloudinary.com/dicttuyma/image/upload/w_1500,h_600,c_fill,g_auto/v1742155960/banner/abstract_18.jpg"
      = "banner/abstract_18" := by
  refine ⟨?_, fun _ => rfl, by decide⟩
  intro url
  constructor
  · intro h
    rcases hs : searchUpload url.data with _ | g
    · rfl
    · exfalso
      unfold extract_public_id at h
      rw [hs] at h
      have hg : g = [] := congrArg String.data h
      exact searchUpload_ne_nil hs hg
  · intro h
    unfold extract_public_id
    rw [h]

/-- Witness for C8 at a URL with no match of the pattern. -/
theorem extract_public_id_total_and_stable_witness :
    extract_public_id "https://example.com/image.png" = "" :=
  (extract_public_id_total_and_stable.1 "https://example.com/image.png").mpr (by decide)

/-! ## Claim C6 — default icon on update -/

/-- C6 (counterexample): with `icon` in the back mapping and a configured
default icon, an `update_entry` whose file info carries no explicit icon
issues an `update_icon` call carrying the default icon — the existing
entry's icon is overwritten, not left unchanged as the claim states. -/
theorem update_entry_default_icon_counterexample :
    NotionBackend.iconOps
        (NotionBackend.update_entry ⟨["icon", "name"], some "default-icon"⟩
          ⟨none, none, [("name", "X")]⟩ "page-1")
      = ["default-icon"] := by decide

/-- C6 (amended): on update, the icon patched is the explicitly supplied one
when present, otherwise the backend's configured default icon when one
exists; only when the back mapping has no icon field, or no default is
configured and none is supplied, is the existing icon left unchanged. -/
theorem update_entry_icon_rule (cfg : NotionBackend.DBConfig)
    (file_info : NotionBackend.NFileInfo) (pageId : String) :
    NotionBackend.iconOps (NotionBackend.update_entry cfg file_info pageId) =
      if "icon" ∈ cfg.backKeys then
        match file_info.icon with
        | some i => [i]
        | none => cfg.default_icon.toList
      else [] := by
  unfold NotionBackend.update_entry NotionBackend.build_flat_object_for_update
    NotionBackend.iconOps
  by_cases hm : "icon" ∈ cfg.backKeys
  · rw [if_pos hm]
    simp only [if_pos hm]
    cases hi : file_info.icon with
    | some i =>
        cases hc : (if "cover" ∈ cfg.backKeys then file_info.image_url else none) with
        | some u => simp [List.filterMap_append]
        | none => simp [List.filterMap_append]
    | none =>
        cases hd : cfg.default_icon with
        | some d =>
            cases hc : (if "cover" ∈ cfg.backKeys then file_info.image_url else none) with
            | some u => simp [List.filterMap_append]
            | none => simp [List.filterMap_append]
        | none =>
            cases hc : (if "cover" ∈ cfg.backKeys then file_info.image_url else none) with
            | some u => simp [List.filterMap_append]
            | none => simp [List.filterMap_append]
  · rw [if_neg hm]
    simp only [if_neg hm]
    cases hc : (if "cover" ∈ cfg.backKeys then file_info.image_url else none) with
    | some u => simp [List.filterMap_append]
    | none => simp [List.filterMap_append]

/-! ## Claim C9 — scan root existence check -/

/-- C9 (counterexample): `scan_folder` checks `Path.exists()`, not that the
root is a directory: on a file system where the expanded root exists but is
not a directory (its `rglob` listing is empty), no error is raised — the
scan returns an empty list, contradicting the claim that every
non-directory root raises the not-found error. -/
theorem scan_folder_existing_file_counterexample :
    (FileSystem.pathExists
        ⟨fun _ => true, fun _ => false, fun s => s, fun _ => []⟩
        "/assets/banner.txt" = true) ∧
    (FileSystem.isDirectory
        ⟨fun _ => true, fun _ => false, fun s => s, fun _ => []⟩
        "/assets/banner.txt" = false) ∧
    scan_folder ⟨fun _ => true, fun _ => false, fun s => s, fun _ => []⟩
        "/assets/banner.txt" "banner" [] = Except.ok [] :=
  ⟨rfl, rfl, rfl⟩

/-- C9 (amended): `scan_folder` fails with the not-found error exactly when
the environment-expanded root path does not exist at all; any existing path
(directory or not) scans without error. -/
theorem scan_folder_error_iff_not_exists (fs : FileSystem)
    (folder_path root_category : String) (skip_files : List String) :
    (∃ msg, scan_folder fs folder_path root_category skip_files = Except.error msg) ↔
      fs.pathExists (fs.expandvars folder_path) = false := by
  unfold scan_folder
  by_cases hp : fs.pathExists (fs.expandvars folder_path)
  · simp [hp]
  · simp [hp]

/-- Witness for C9 at a file system with a missing root. -/
theorem scan_folder_error_iff_not_exists_witness :
    ∃ msg, scan_folder ⟨fun _ => false, fun _ => false, fun s => s, fun _ => []⟩
        "/gone" "banner" [] = Except.error msg :=
  (scan_folder_error_iff_not_exists
      ⟨fun _ => false, fun _ => false, fun s => s, fun _ => []⟩ "/gone" "banner" []).mpr rfl

/-! ## Claim C10 — local JSON backend invariant -/

/-- C10: the local-log backend keeps every record's `id` and `hash` equal to
its key: from any state satisfying the invariant, it holds after
`create_entry`, `update_entry` (which removes the record under the old hash
and re-inserts it under the new one, preserving extra fields) and
`delete_entry`; `delete_entry` on an absent hash leaves the log unchanged
and raises nothing. -/
theorem localjson_invariant (st : Store) (file_info : SyncFileInfo)
    (existing_entry : Record) (hinv : StoreInv st) :
    StoreInv (LocalJson.create_entry st file_info) ∧
    StoreInv (LocalJson.update_entry st file_info existing_entry) ∧
    StoreInv (LocalJson.delete_entry st existing_entry) ∧
    (lookupA existing_entry.hash st = none →
      LocalJson.delete_entry st existing_entry = st) ∧
    (∀ r, lookupA existing_entry.hash st = some r →
      lookupA file_info.hash (LocalJson.update_entry st file_info existing_entry) =
        some { id := file_info.hash, file_name := file_info.file_name,
               raw_path := file_info.raw_path, image_url := file_info.image_url,
               tags := file_info.tags, hash := file_info.hash, extra := r.extra }) ∧
    (existing_entry.hash ≠ file_info.hash →
      lookupA existing_entry.hash (LocalJson.update_entry st file_info existing_entry)
        = none) := by
  obtain ⟨hnd, hmem⟩ := hinv
  refine ⟨⟨?_, ?_⟩, ⟨?_, ?_⟩, ?_, ?_, ?_, ?_⟩
  · exact nodup_keysA_insertA _ _ hnd
  · intro p hp
    rcases mem_insertA hp with h1 | h1
    · subst h1; exact ⟨rfl, rfl⟩
    · exact hmem p h1
  · exact nodup_keysA_insertA _ _ (nodup_keysA_removeA _ hnd)
  · intro p hp
    rcases mem_insertA hp with h1 | h1
    · subst h1; exact ⟨rfl, rfl⟩
    · exact hmem p (mem_of_mem_removeA h1)
  · unfold LocalJson.delete_entry
    split
    · exact ⟨nodup_keysA_removeA _ hnd, fun p hp => hmem p (mem_of_mem_removeA hp)⟩
    · exact ⟨hnd, hmem⟩
  · intro h
    unfold LocalJson.delete_entry
    rw [h]
    simp
  · intro r hr
    simp only [LocalJson.update_entry, hr, Option.map_some', Option.getD_some]
    exact lookupA_insertA_self _ _ _
  · intro hne
    simp only [LocalJson.update_entry]
    rw [lookupA_insertA_ne _ _ hne]
    exact lookupA_removeA_self_of_nodup hnd

/-- Witness for C10 on a concrete one-record log. -/
theorem localjson_invariant_witness :
    StoreInv [("h1", ⟨"h1", "a.jpg", "$V/a.jpg", some "u", ["banner"], "h1",
        [("note", "keep-me")]⟩)] ∧
    StoreInv (LocalJson.update_entry
      [("h1", ⟨"h1", "a.jpg", "$V/a.jpg", some "u", ["banner"], "h1",
        [("note", "keep-me")]⟩)]
      ⟨"b.jpg", "$V/b.jpg", "h2", ["banner"], some "u2"⟩
      ⟨"h1", "a.jpg", "$V/a.jpg", some "u", ["banner"], "h1", [("note", "keep-me")]⟩) :=
  ⟨by decide,
   (localjson_invariant
      [("h1", ⟨"h1", "a.jpg", "$V/a.jpg", some "u", ["banner"], "h1",
        [("note", "keep-me")]⟩)]
      ⟨"b.jpg", "$V/b.jpg", "h2", ["banner"], some "u2"⟩
      ⟨"h1", "a.jpg", "$V/a.jpg", some "u", ["banner"], "h1", [("note", "keep-me")]⟩
      (by decide)).2.1⟩

end NotionSync
